import Mathlib

/-!
# githeat: calendar heatmap of commit activity

A shallow embedding of `cmd/root.go` (the `RunE` closure of `rootCmd`,
`getCommitsByDate`, `getMondaysDateForDate` and `colorize`) together with the
properties of the week grid, the aggregation and the colour banding.

## Model of `time.Time`

The program looks at its time values through their calendar date (it moves
them by whole days with `AddDate(0, 0, n)`, formats them with date-only layouts
and parses date-only strings) and through one elapsed time,
`today.Sub(monday)`.  A time value is therefore an integer, the number of days
since 1970-01-01 (a Thursday) of the calendar date of the reading.  The clock
is read at one time of day, and every time value of a run is that reading
moved by whole days.  The time zone is a function `zone` from day numbers to
seconds: `zone t` is the number of seconds by which the time value of day
`t`, read as the time of day of the run on that date, is ahead of UTC.  When
the time of day of the run exists once on each date this is the UTC offset of
the zone on that day at that time of day.  `instant` places a time value on
the UTC time line and `timeSub` is the difference of two instants, limited to
the range of `time.Duration` as `Time.Sub` limits it.  The definitions
`weekCount`, `render` and `runE`, which take no zone, are those of a zone
whose offset never changes (`utc`).

`addDays` is the sum of day numbers: it is `AddDate(0, 0, n)` as long as the
64-bit count of seconds of package `time` does not wrap around, which is the
case for every day count of a 32-bit integer.  The only day count of the
program that is not bounded by the size of the grid is the flag `--days`.
-/

namespace GitHeat

/-! ## Time values -/

/-! A `time.Time` is an `Int`, the day number of its calendar date
(0 = 1970-01-01); a `time.Duration` is an `Int`, a number of nanoseconds
between `minDuration` and `maxDuration`; a time zone is a function from day
numbers to seconds east of UTC. -/

/-- Nanoseconds in one hour (`time.Hour`). -/
def nsPerHour : Int := 3600000000000

/-- Nanoseconds in one second (`time.Second`). -/
def nsPerSecond : Int := 1000000000

/-- The largest `time.Duration` (`1<<63 - 1` nanoseconds, about 292 years). -/
def maxDuration : Int := 9223372036854775807

/-- The smallest `time.Duration` (`-1 << 63` nanoseconds). -/
def minDuration : Int := -9223372036854775808

/-- `t.AddDate(0, 0, n)`: the same time of day `n` calendar days later, as
long as the 64-bit count of seconds of package `time` does not wrap around. -/
def addDays (t : Int) (n : Int) : Int := t + n

/-- A zone whose offset is 0 on every day (`time.UTC`). -/
def utc : Int → Int := fun _ => 0

/-- The offsets of `America/New_York` at noon on the days of 2024: daylight
time (UTC-4) from 2024-03-10 through 2024-11-02, standard time (UTC-5) on the
other days. -/
def zoneNewYork2024 (t : Int) : Int :=
  if 19792 ≤ t ∧ t < 20030 then -14400 else -18000

/-- The instant of the reading of day `t`, in nanoseconds on the UTC time
line, counted from the same time of day on 1970-01-01 in UTC: the wall clock
reading minus the offset of the zone on that day. -/
def instant (zone : Int → Int) (t : Int) : Int :=
  t * (24 * nsPerHour) - zone t * nsPerSecond

/-- The overflow rule of `Time.Sub`: a difference that does not fit a
`time.Duration` is replaced by the smallest or the largest duration. -/
def saturate (d : Int) : Int :=
  if d < minDuration then minDuration
  else if maxDuration < d then maxDuration
  else d

/-- `t.Sub(u)`: the elapsed time between two readings, in nanoseconds. -/
def timeSub (zone : Int → Int) (t u : Int) : Int :=
  saturate (instant zone t - instant zone u)

/-- `t.After(u)`. -/
def timeAfter (t u : Int) : Bool := decide (u < t)

/-- `int(t.Weekday())`: Sunday = 0, Monday = 1, ..., Saturday = 6. -/
def Weekday (t : Int) : Int := (t + 4) % 7

/-- `int(d.Hours()/24/7)`: the quotient of the duration by one week, truncated
toward zero by the conversion to `int`. The durations of the program are
whole seconds of less than 2^63 nanoseconds; the rounding of the `float64`
quotient is far smaller than the distance of such a quotient to the next whole
number of weeks, so that the result is the exact truncated quotient. -/
def weeksTrunc (d : Int) : Int := Int.tdiv d (nsPerHour * 24 * 7)

/-! ## `getMondaysDateForDate` and the week count -/

/-- `getMondaysDateForDate` (root.go, lines 164-172). -/
def getMondaysDateForDate (date : Int) : Int :=
  let weekday := Weekday date
  let weekday := if weekday = 0 then 7 else weekday
  addDays date (-weekday + 1)

/-- `weekCount := int(today.Sub(monday).Hours()/24/7) + 1` (root.go, line 56),
in the zone `zone`. -/
def weekCountIn (zone : Int → Int) (monday today : Int) : Int :=
  weeksTrunc (timeSub zone today monday) + 1

/-- The week count of line 56 in a zone whose offset never changes. -/
def weekCount (monday today : Int) : Int := weekCountIn utc monday today

/-- ISO weekday number of a date, following the spec's words: 1 for Monday
through 7 for Sunday. -/
def isoWeekday (t : Int) : Int := (t + 3) % 7 + 1

/-- Whole days of elapsed time from the reading of day `a` to the reading of
day `b` in the zone `zone`: the distance of the two instants divided by 24
hours, rounded down. -/
def elapsedDays (zone : Int → Int) (a b : Int) : Int :=
  (instant zone b - instant zone a) / (24 * nsPerHour)

/-- Whole days from `a` to `b` in a zone whose offset never changes. -/
def wholeDays (a b : Int) : Int := elapsedDays utc a b

/-- Ceiling of the quotient `a / b`, for the spec's `⌈·⌉`. -/
def ceilDiv (a b : Int) : Int := -((-a) / b)

/-! ## Proleptic Gregorian calendar -/

/-- Year, month (1-12) and day of month (1-31) of a day number: what
`t.Date()` returns. -/
def civil (t : Int) : Int × Int × Int :=
  let z := t + 719468
  let era := z / 146097
  let doe := z - era * 146097
  let yoe := (doe - doe / 1460 + doe / 36524 - doe / 146096) / 365
  let doy := doe - (365 * yoe + yoe / 4 - yoe / 100)
  let mp := (5 * doy + 2) / 153
  let d := doy - (153 * mp + 2) / 5 + 1
  let m := if mp < 10 then mp + 3 else mp - 9
  let y := yoe + era * 400
  (if m ≤ 2 then y + 1 else y, m, d)

/-- `t.Year()`. -/
def Year (t : Int) : Int := (civil t).1

/-- `int(t.Month())`. -/
def Month (t : Int) : Int := (civil t).2.1

/-- `t.Day()`. -/
def Day (t : Int) : Int := (civil t).2.2

/-- Day number of the calendar date `y-m-d` (`time.Date(y, m, d, ...)`). -/
def daysFromCivil (y m d : Int) : Int :=
  let y := if m ≤ 2 then y - 1 else y
  let era := y / 400
  let yoe := y - era * 400
  let mp := if m > 2 then m - 3 else m + 9
  let doy := (153 * mp + 2) / 5 + d - 1
  let doe := yoe * 365 + yoe / 4 - yoe / 100 + doy
  era * 146097 + doe - 719468

/-- Leap years of the Gregorian calendar (`isLeap` of package time). -/
def isLeap (y : Int) : Bool :=
  y % 4 = 0 && (y % 100 ≠ 0 || y % 400 = 0)

/-- Number of days of month `m` in year `y` (`daysIn` of package time). -/
def daysIn (m y : Int) : Int :=
  if m = 2 then (if isLeap y then 29 else 28)
  else if m = 4 ∨ m = 6 ∨ m = 9 ∨ m = 11 then 30
  else 31

/-- Days of an era before its March-based year `y`. -/
def daysBeforeYear (y : Int) : Int := 365 * y + y / 4 - y / 100

/-- The numerator of the year-of-era quotient in `civil`. -/
def yearNumerator (doe : Int) : Int := doe - doe / 1460 + doe / 36524 - doe / 146096

/-! ## Formatting and parsing dates -/

/-- The decimal digit character of `n % 10`. -/
def digitChar (n : Nat) : Char := Char.ofNat (48 + n % 10)

/-- Decimal digits of `u`, most significant first, prepended to `acc`; the
first argument bounds the number of digits. -/
def decimalAux : Nat → Nat → List Char → List Char
  | 0, u, acc => digitChar u :: acc
  | fuel + 1, u, acc =>
    if u < 10 then digitChar u :: acc
    else decimalAux fuel (u / 10) (digitChar (u % 10) :: acc)

/-- Decimal representation of a natural number. -/
def decimal (u : Nat) : List Char := decimalAux u u []

/-- `appendInt` of package time: a minus sign for a negative number, then the
decimal digits padded with zeros on the left up to `width`. -/
def appendInt (x : Int) (width : Nat) : List Char :=
  let ds := decimal x.natAbs
  (if x < 0 then ['-'] else []) ++ List.replicate (width - ds.length) '0' ++ ds

/-- `t.Format("2006-01-02")`. -/
def formatDate (t : Int) : String :=
  String.mk (appendInt (Year t) 4 ++ '-' :: appendInt (Month t) 2 ++ '-' :: appendInt (Day t) 2)

/-- `t.Format("2006-01")`. -/
def formatYearMonth (t : Int) : String :=
  String.mk (appendInt (Year t) 4 ++ '-' :: appendInt (Month t) 2)

/-- The table `shortMonthNames` of package time, indexed by month number. -/
def shortMonthName (m : Int) : String :=
  if m = 1 then "Jan" else if m = 2 then "Feb" else if m = 3 then "Mar"
  else if m = 4 then "Apr" else if m = 5 then "May" else if m = 6 then "Jun"
  else if m = 7 then "Jul" else if m = 8 then "Aug" else if m = 9 then "Sep"
  else if m = 10 then "Oct" else if m = 11 then "Nov" else if m = 12 then "Dec"
  else ""

/-- `t.Format("Jan")`. -/
def formatMonthAbbr (t : Int) : String := shortMonthName (Month t)

/-- ASCII decimal digit test (`isDigit` of package time). -/
def isDigit (c : Char) : Bool := decide (48 ≤ c.toNat ∧ c.toNat ≤ 57)

/-- Value of a decimal digit character. -/
def digitVal (c : Char) : Int := (c.toNat : Int) - 48

/-- `time.Parse("2006-01-02", s)` on the characters of `s`: four year digits,
two month digits and two day digits separated by `-`, nothing else, the month
in 1..12 and the day within the month; `none` stands for a parse error. -/
def parseDateChars : List Char → Option Int
  | [y1, y2, y3, y4, s1, m1, m2, s2, d1, d2] =>
    if isDigit y1 && isDigit y2 && isDigit y3 && isDigit y4 && s1 = '-'
        && isDigit m1 && isDigit m2 && s2 = '-' && isDigit d1 && isDigit d2 then
      let year := digitVal y1 * 1000 + digitVal y2 * 100 + digitVal y3 * 10 + digitVal y4
      let month := digitVal m1 * 10 + digitVal m2
      let day := digitVal d1 * 10 + digitVal d2
      if month ≤ 0 ∨ 12 < month then none
      else if day < 1 ∨ day > daysIn month year then none
      else some (daysFromCivil year month day)
    else none
  | _ => none

/-- `time.Parse("2006-01-02", s)`. -/
def parseDate (s : String) : Option Int := parseDateChars s.data

/-! ## `colorize` -/

/-- `colorize` (root.go, lines 174-222). -/
def colorize (count : Int) (background : Bool) : String :=
  if background then
    if count ≥ 9 then "\x1b[30;48;5;22m9\x1b[0m"
    else if count = 8 then "\x1b[30;48;5;28m8\x1b[0m"
    else if count = 7 then "\x1b[30;48;5;34m7\x1b[0m"
    else if count = 6 then "\x1b[30;48;5;40m6\x1b[0m"
    else if count = 5 then "\x1b[30;48;5;46m5\x1b[0m"
    else if count = 4 then "\x1b[30;48;5;82m4\x1b[0m"
    else if count = 3 then "\x1b[30;48;5;118m3\x1b[0m"
    else if count = 2 then "\x1b[30;48;5;154m2\x1b[0m"
    else if count = 1 then "\x1b[30;48;5;191m1\x1b[0m"
    else "-"
  else
    if count ≥ 9 then "\x1b[38;5;191m9\x1b[0m"
    else if count = 8 then "\x1b[38;5;154m8\x1b[0m"
    else if count = 7 then "\x1b[38;5;118m7\x1b[0m"
    else if count = 6 then "\x1b[38;5;82m6\x1b[0m"
    else if count = 5 then "\x1b[38;5;46m5\x1b[0m"
    else if count = 4 then "\x1b[38;5;40m4\x1b[0m"
    else if count = 3 then "\x1b[38;5;34m3\x1b[0m"
    else if count = 2 then "\x1b[38;5;28m2\x1b[0m"
    else if count = 1 then "\x1b[38;5;22m1\x1b[0m"
    else "-"

/-- The escape character that opens an ANSI control sequence. -/
def esc : Char := Char.ofNat 27

/-- Skip the rest of a control sequence: everything up to and including its
final letter `m`. -/
def dropSGR : List Char → List Char
  | [] => []
  | c :: cs => if c = 'm' then cs else dropSGR cs

/-- The characters a terminal displays: the text with every SGR control
sequence `ESC [ ... m` removed; the first argument bounds the scan. -/
def visibleAux : Nat → List Char → List Char
  | 0, _ => []
  | _ + 1, [] => []
  | n + 1, c :: cs =>
    if c = esc then visibleAux n (dropSGR cs) else c :: visibleAux n cs

/-- The characters of `s` that a terminal displays. -/
def visible (s : String) : List Char := visibleAux s.data.length s.data

/-- The band of a rendered cell: the digit it shows, 0 for anything else. -/
def bandOf (s : String) : Int :=
  match visible s with
  | [c] => if isDigit c then digitVal c else 0
  | _ => 0

/-- The band that `colorize` shows for a count. -/
def band (count : Int) (background : Bool) : Int := bandOf (colorize count background)

/-- The reset sequence `ESC [ 0 m`. -/
def sgrReset : List Char := [esc, '[', '0', 'm']

/-- An SGR colour sequence: `ESC [`, then parameters made of digits and `;`
with at least one digit, then the final letter `m`. -/
def isSGRColour (l : List Char) : Bool :=
  match l with
  | e :: b :: rest =>
    decide (e = esc) && decide (b = '[') && decide (rest.getLast? = some 'm')
      && rest.dropLast.all (fun c => isDigit c || decide (c = ';'))
      && rest.dropLast.any isDigit
  | _ => false

/-! ## Go maps

A Go `map[string]V` is the list of its entries in the order in which a `range`
loop happens to visit them; every key occurs once. -/

/-- `v, ok := m[k]`; `none` when the key is absent. -/
def mapGet {V : Type} : List (String × V) → String → Option V
  | [], _ => none
  | (k', v) :: rest, k => if k' = k then some v else mapGet rest k

/-- `m[k] = v`. -/
def mapSet {V : Type} : List (String × V) → String → V → List (String × V)
  | [], k, v => [(k, v)]
  | (k', v') :: rest, k, v =>
    if k' = k then (k, v) :: rest else (k', v') :: mapSet rest k v

/-! ## The commit source: `getCommitsByDate` -/

/-- One commit record: `struct { SHA string; Tags string }`. -/
structure Commit where
  SHA : String
  Tags : String
deriving DecidableEq

/-- White space as `unicode.IsSpace` defines it. -/
def isSpace (c : Char) : Bool :=
  let n := c.toNat
  decide ((9 ≤ n ∧ n ≤ 13) ∨ n = 32 ∨ n = 133 ∨ n = 160 ∨ n = 5760
    ∨ (8192 ≤ n ∧ n ≤ 8202) ∨ n = 8232 ∨ n = 8233 ∨ n = 8239 ∨ n = 8287 ∨ n = 12288)

/-- `strings.TrimSpace`. -/
def trimSpace (l : List Char) : List Char :=
  ((l.dropWhile isSpace).reverse.dropWhile isSpace).reverse

/-- `strings.Split(s, sep)` for a one-character separator. -/
def splitOn (sep : Char) : List Char → List (List Char)
  | [] => [[]]
  | c :: cs =>
    if c = sep then [] :: splitOn sep cs
    else match splitOn sep cs with
      | [] => [[c]]
      | p :: ps => (c :: p) :: ps

/-- `strings.SplitN(s, sep, n)` for a one-character separator and `n ≥ 0`: at
most `n` parts, the last one the unsplit remainder. -/
def splitN (sep : Char) : List Char → Nat → List (List Char)
  | _, 0 => []
  | s, 1 => [s]
  | [], _ + 2 => [[]]
  | c :: cs, n + 2 =>
    if c = sep then [] :: splitN sep cs (n + 1)
    else match splitN sep cs (n + 2) with
      | [] => [[c]]
      | p :: ps => (c :: p) :: ps

/-- One iteration of the line loop of `getCommitsByDate` (root.go, lines
142-160); `none` is the run-time panic of `parts[1]` on a line with a single
field. -/
def parseLine (commitMap : List (String × List Commit)) (line : List Char) :
    Option (List (String × List Commit)) :=
  if trimSpace line = [] then some commitMap
  else
    match splitN ' ' line 3 with
    | date :: sha :: rest =>
      let tags := match rest with
        | [] => []
        | t :: _ => trimSpace t
      some (mapSet commitMap (String.mk date)
        ((mapGet commitMap (String.mk date)).getD [] ++ [⟨String.mk sha, String.mk tags⟩]))
    | _ => none

/-- The commit map that `getCommitsByDate` builds from the text printed by
`git log` (root.go, lines 137-161). -/
def parseLog (output : String) : Option (List (String × List Commit)) :=
  (splitOn '\n' output.data).foldlM parseLine []

/-! ## The fields of a log line, in the spec's words -/

/-- First field of a log line: the characters before the first space. -/
def specDateField (line : List Char) : List Char := line.takeWhile (fun c => c ≠ ' ')

/-- What follows the first field and its separating space. -/
def afterField (line : List Char) : List Char := (line.dropWhile (fun c => c ≠ ' ')).drop 1

/-- Second field of a log line: the characters between the first space and
the second one. -/
def specHashField (line : List Char) : List Char := specDateField (afterField line)

/-- The decoration of a log line: what follows the second space, trimmed. -/
def specTagsField (line : List Char) : List Char := trimSpace (afterField (afterField line))

/-- The date and the commit record that a log line stands for. -/
def specRecord (line : List Char) : String × Commit :=
  (String.mk (specDateField line),
   ⟨String.mk (specHashField line), String.mk (specTagsField line)⟩)

/-- The records of a log, one per non-blank line, in the order of the lines. -/
def specRecords (lines : List (List Char)) : List (String × Commit) :=
  (lines.filter (fun l => decide (trimSpace l ≠ []))).map specRecord

/-- The commits recorded for the date `D`, in the order of the lines. -/
def specBucket (lines : List (List Char)) (D : String) : List Commit :=
  ((specRecords lines).filter (fun r => decide (r.1 = D))).map Prod.snd

/-- The shape `<date> <hash>`, optionally followed by a space and a
decoration; the two fields hold no space. -/
def LineShape (line date hash : List Char) (deco : Option (List Char)) : Prop :=
  ' ' ∉ date ∧ ' ' ∉ hash ∧
  line = date ++ ' ' :: (hash ++ match deco with
    | none => []
    | some d => ' ' :: d)

/-- The commits stored under a date, none when the date is absent. -/
def bucketOf (m : List (String × List Commit)) (D : String) : List Commit :=
  (mapGet m D).getD []

/-- A commit map as `getCommitsByDate` builds it: every key occurs once and no
key holds an empty list. -/
def GoodMap (m : List (String × List Commit)) : Prop :=
  (m.map Prod.fst).Nodup ∧ ∀ D, mapGet m D ≠ some []

/-! ## Decimal values and colour indices -/

/-- Value of a run of decimal digits. -/
def digitsValue (l : List Char) : Nat :=
  l.foldl (fun acc c => 10 * acc + (c.toNat - 48)) 0

/-- The 256-colour index in a list of SGR parameters: the parameter that
follows `38;5` (foreground) or `48;5` (background). -/
def indexInParams : List Nat → Option Nat
  | [] => none
  | p :: rest =>
    match rest with
    | 5 :: n :: _ => if p = 38 ∨ p = 48 then some n else indexInParams rest
    | _ => indexInParams rest

/-- The 256-colour index that a rendered cell selects: read from the
parameters of its first SGR sequence `ESC [ p ; ... ; p m`. -/
def colourIndex (s : String) : Option Nat :=
  match s.data with
  | e :: b :: rest =>
    if e = esc ∧ b = '[' then
      indexInParams ((splitOn ';' (rest.takeWhile (fun c => c ≠ 'm'))).map digitsValue)
    else none
  | _ => none

/-- The signed number that a minus sign and decimal digits stand for. -/
def parseSigned (l : List Char) : Int :=
  match l with
  | [] => 0
  | c :: rest => if c = '-' then -(digitsValue rest : Int) else (digitsValue (c :: rest) : Int)

/-! ## Aggregation (root.go, lines 38-52) -/

/-- `totals[i] += n`. -/
def addAt : List Int → Nat → Int → List Int
  | [], _, _ => []
  | x :: xs, 0, n => (x + n) :: xs
  | x :: xs, i + 1, n => x :: addAt xs i n

/-- The weekday remapping of lines 44-49: `wd := int(parsedDate.Weekday())`,
then Sunday (0) becomes 6 and every other day `wd - 1`. -/
def weekdayIndex (wd : Int) : Int := if wd = 0 then 6 else wd - 1

/-- One iteration of the aggregation loop: the state is `commitCountByDate`
and `weekdayTotals`, the entry is a date key with its commits. -/
def aggregateStep (st : List (String × Int) × List Int) (e : String × List Commit) :
    List (String × Int) × List Int :=
  let commitCountByDate := mapSet st.1 e.1 (e.2.length : Int)
  match parseDate e.1 with
  | some parsedDate =>
    let wd := weekdayIndex (Weekday parsedDate)
    (commitCountByDate, addAt st.2 wd.toNat (e.2.length : Int))
  | none => (commitCountByDate, st.2)

/-- The aggregation loop over the commit map, visited in list order: returns
`commitCountByDate` and `weekdayTotals`. -/
def aggregate (commitMap : List (String × List Commit)) : List (String × Int) × List Int :=
  commitMap.foldl aggregateStep ([], List.replicate 7 0)

/-- `commitCountByDate` after aggregation. -/
def commitCountByDate (commitMap : List (String × List Commit)) : List (String × Int) :=
  (aggregate commitMap).1

/-- `weekdayTotals` after aggregation. -/
def weekdayTotals (commitMap : List (String × List Commit)) : List Int :=
  (aggregate commitMap).2

/-- Weekday index of the spec: `(nativeWeekday + 6) % 7`, Monday = 0 through
Sunday = 6. -/
def specWeekdayIndex (t : Int) : Int := (Weekday t + 6) % 7

/-- Weekday total of the spec: the sum of the commit-list lengths over the
keys that parse as dates falling on weekday index `i`. -/
def specWeekdayTotal (commitMap : List (String × List Commit)) (i : Int) : Int :=
  (commitMap.map (fun e =>
    match parseDate e.1 with
    | some t => if specWeekdayIndex t = i then (e.2.length : Int) else 0
    | none => 0)).sum

/-- Sum of the commit-list lengths over the keys that parse as dates. -/
def parsedCommitTotal (commitMap : List (String × List Commit)) : Int :=
  (commitMap.map (fun e =>
    match parseDate e.1 with
    | some _ => (e.2.length : Int)
    | none => 0)).sum

/-- Sum of the values of a count map over the keys that parse as dates. -/
def parsedCountTotal (counts : List (String × Int)) : Int :=
  (counts.map (fun e =>
    match parseDate e.1 with
    | some _ => e.2
    | none => 0)).sum

/-- Sum of all values of a count map. -/
def countTotal (counts : List (String × Int)) : Int := (counts.map Prod.snd).sum

/-! ## Month labels (root.go, lines 60-70) -/

/-- `weekStart := monday.AddDate(0, 0, w*7)`. -/
def weekStart (monday : Int) (w : Nat) : Int := addDays monday ((w : Int) * 7)

/-- One iteration of the month-label loop: the state is `monthLabels` and
`monthPrinted`. -/
def monthLabelsStep (monday : Int) (st : List String × List (String × Bool)) (w : Nat) :
    List String × List (String × Bool) :=
  let monthKey := formatYearMonth (weekStart monday w)
  if Day (weekStart monday w) ≤ 7 ∧ (mapGet st.2 monthKey).getD false = false then
    (st.1.set w (formatMonthAbbr (weekStart monday w)), mapSet st.2 monthKey true)
  else st

/-- The month-label loop over the first `n` columns of a label row of
`weekCount` columns. -/
def monthLabelsLoop (monday : Int) (weekCount n : Nat) : List String × List (String × Bool) :=
  (List.range n).foldl (monthLabelsStep monday) (List.replicate weekCount "", [])

/-- `monthLabels` after the loop. -/
def monthLabels (monday : Int) (weekCount : Nat) : List String :=
  (monthLabelsLoop monday weekCount weekCount).1

/-- The invariant of the month-label loop after `n` columns. -/
def LabelInv (monday : Int) (W n : Nat) (st : List String × List (String × Bool)) : Prop :=
  st.1.length = W ∧
  (∀ w, st.1.getD w "" ≠ "" →
    w < n ∧ Day (weekStart monday w) ≤ 7 ∧
    st.1.getD w "" = formatMonthAbbr (weekStart monday w) ∧
    mapGet st.2 (formatYearMonth (weekStart monday w)) = some true) ∧
  (∀ w₁ w₂, st.1.getD w₁ "" ≠ "" → st.1.getD w₂ "" ≠ "" →
    formatYearMonth (weekStart monday w₁) = formatYearMonth (weekStart monday w₂) → w₁ = w₂)

/-- The invariant of the month-label loop after `n` columns, with the guard
spelled out: the labelled columns are those whose week starts in the first
seven days of a month, and the printed keys are their year-months. -/
def FirstMondayInv (monday : Int) (W n : Nat) (st : List String × List (String × Bool)) :
    Prop :=
  st.1.length = W ∧
  (∀ w, w < n → (st.1.getD w "" ≠ "" ↔ Day (weekStart monday w) ≤ 7)) ∧
  (∀ w, n ≤ w → st.1.getD w "" = "") ∧
  (∀ k, (mapGet st.2 k).getD false = true →
    ∃ w, w < n ∧ Day (weekStart monday w) ≤ 7 ∧ formatYearMonth (weekStart monday w) = k)

/-! ## Matrix fill (root.go, lines 84-103) -/

/-- `matrix[d][w] = v`. -/
def setCell (matrix : List (List String)) (d w : Nat) (v : String) : List (List String) :=
  matrix.set d ((matrix.getD d []).set w v)

/-- The string stored into `matrix[d][w]` by the body of the fill loop. -/
def cellValue (monday today : Int) (counts : List (String × Int)) (w d : Nat) : String :=
  let current := addDays monday ((w : Int) * 7 + (d : Int))
  if timeAfter current today then " "
  else
    let dateStr := formatDate current
    match mapGet counts dateStr with
    | some count => if count > 0 then colorize count false else " "
    | none => " "

/-- The inner loop `for d := range 7` for one column. -/
def fillColumn (monday today : Int) (counts : List (String × Int))
    (matrix : List (List String)) (w : Nat) : List (List String) :=
  (List.range 7).foldl (fun m d => setCell m d w (cellValue monday today counts w d)) matrix

/-- The matrix after allocation and fill: 7 rows of `weekCount` cells. -/
def fillMatrix (monday today : Int) (counts : List (String × Int)) (weekCount : Nat) :
    List (List String) :=
  (List.range weekCount).foldl (fillColumn monday today counts)
    (List.replicate 7 (List.replicate weekCount ""))

/-- The matrix has 7 rows of `W` cells. -/
def MatrixShape (m : List (List String)) (W : Nat) : Prop :=
  m.length = 7 ∧ ∀ d, d < 7 → (m.getD d []).length = W

/-- `matrix[d][w]`. -/
def cell (matrix : List (List String)) (d w : Nat) : String :=
  (matrix.getD d []).getD w ""

/-! ## The run: `rootCmd.RunE` (root.go, lines 18-116)

Standard output is the list of the strings written, one per call of a print
function. The `git` process is a function from the repository path and the
`--since` argument to what `gitcmd.Output()` returns: an error or the text. -/

/-- How a run ends: `return nil`, `return err`, `os.Exit(code)`, a run-time
panic, or a loop that never ends. -/
inductive Outcome where
  | ok
  | error (err : String)
  | exit (code : Nat)
  | panic
  | hang
deriving DecidableEq

/-- `getCommitsByDate` (root.go, lines 120-162): the text written to standard
output and the value returned, a commit map or an error; `none` is the
run-time panic of the line loop. -/
def getCommitsByDate (git : String → String → Except String String)
    (repoPath : String) (sinceDate : Int) :
    List String × Option (Except String (List (String × List Commit))) :=
  match git repoPath (formatDate sinceDate) with
  | .error err => (["Error executing git command: " ++ err ++ "\n"], some (.error err))
  | .ok output =>
    match parseLog output with
    | some commitMap => ([], some (.ok commitMap))
    | none => ([], none)

/-- The verb `%Ns`: the string padded with blanks on the left up to `width`
characters. -/
def padLeft (width : Nat) (s : String) : String :=
  String.mk (List.replicate (width - s.data.length) ' ' ++ s.data)

/-- The verb `%2d`. -/
def formatInt2 (x : Int) : String :=
  padLeft 2 (String.mk ((if x < 0 then ['-'] else []) ++ decimal x.natAbs))

/-- The month header walk (root.go, lines 72-80) from column `w`, appending to
`out`; the first argument bounds the number of iterations, `none` when it is
used up before the loop ends. -/
def headerLoop (monthLabels : List String) (weekCount : Nat) :
    Nat → Nat → List String → Option (List String)
  | 0, w, out => if w < weekCount then none else some out
  | fuel + 1, w, out =>
    if w < weekCount then
      if monthLabels.getD w "" ≠ "" then
        headerLoop monthLabels weekCount fuel (w + 2) (out ++ [padLeft 4 (monthLabels.getD w "")])
      else
        headerLoop monthLabels weekCount fuel (w + 1) (out ++ ["  "])
    else some out

/-- `dayNames` (root.go, line 105). -/
def dayNames : List String := ["Mon", "", "Wed", "", "Fri", "", "Sun"]

/-- The strings printed for weekday row `i` (root.go, lines 107-112). -/
def rowOutput (matrix : List (List String)) (totals : List Int) (weekCount i : Nat) :
    List String :=
  [padLeft 4 (dayNames.getD i "") ++ " "]
    ++ (List.range weekCount).map (fun w => cell matrix i w ++ " ")
    ++ ["   " ++ formatInt2 (totals.getD i 0) ++ " " ++ dayNames.getD i "", "\n"]

/-- The strings printed by the seven weekday rows. -/
def rowsOutput (matrix : List (List String)) (totals : List Int) (weekCount : Nat) :
    List String :=
  (List.range 7).flatMap (rowOutput matrix totals weekCount)

/-- The part of `RunE` after the commit map was fetched (root.go, lines
37-115), in the zone `zone`: aggregation, week grid, month header and weekday
rows. `out` is what has been written so far. -/
def renderIn (zone : Int → Int) (commitMap : List (String × List Commit))
    (sinceDate now : Int) (out : List String) : List String × Outcome :=
  let counts := commitCountByDate commitMap
  let totals := weekdayTotals commitMap
  let monday := getMondaysDateForDate sinceDate
  let today := now
  let weekCount := weekCountIn zone monday today
  let out := out ++ ["\n"]
  if weekCount < 0 then (out, Outcome.panic)
  else
    let labels := monthLabels monday weekCount.toNat
    match headerLoop labels weekCount.toNat weekCount.toNat 0 (out ++ ["    "]) with
    | none => (out ++ ["    "], Outcome.hang)
    | some out =>
      let out := out ++ ["\n"]
      let matrix := fillMatrix monday today counts weekCount.toNat
      (out ++ rowsOutput matrix totals weekCount.toNat, Outcome.ok)

/-- The part of `RunE` after the commit map was fetched, in a zone whose
offset never changes. -/
def render (commitMap : List (String × List Commit)) (sinceDate now : Int)
    (out : List String) : List String × Outcome :=
  renderIn utc commitMap sinceDate now out

/-- The repository path (root.go, lines 19-24): the first positional argument
if there is one, the value of the flag `--repo` otherwise. -/
def repoPathOf (args : List String) (repoFlag : String) : String :=
  match args with
  | a :: _ => a
  | [] => repoFlag

/-- `rootCmd.RunE` (root.go, lines 18-116) in the zone `zone`: `args` are the
positional arguments, `repoFlag` and `days` the values of the flags `--repo`
and `--days`, `now` the current date. Returns what was written to standard
output and how the run ended. -/
def runEIn (zone : Int → Int) (git : String → String → Except String String)
    (args : List String) (repoFlag : String) (days now : Int) : List String × Outcome :=
  let repoPath := repoPathOf args repoFlag
  if repoPath = "" then (["Error: repository path is required\n"], Outcome.exit 1)
  else
    let sinceDate := addDays now (-days)
    match getCommitsByDate git repoPath sinceDate with
    | (out, none) => (out, Outcome.panic)
    | (out, some (.error err)) => (out, Outcome.error err)
    | (out, some (.ok commitMap)) => renderIn zone commitMap sinceDate now out

/-- `rootCmd.RunE` in a zone whose offset never changes. -/
def runE (git : String → String → Except String String) (args : List String)
    (repoFlag : String) (days now : Int) : List String × Outcome :=
  runEIn utc git args repoFlag days now

/-- A `git` that prints three commits of 2024-01-02 and one of 2024-01-01,
provided it is asked for the commits since 2024-01-01. -/
def gitExample (_repoPath since : String) : Except String String :=
  if since = "2024-01-01" then
    .ok ("2024-01-02 c3c3c3c  (HEAD -> main)\n2024-01-02 b2b2b2b \n"
      ++ "2024-01-02 a1a1a1a \n2024-01-01 0000000 ")
  else .error "exit status 128"

/-! ## Counts shown in a row -/

/-- The commit count shown for a date: the value of `commitCountByDate` under
its `2006-01-02` form, 0 when there is none. -/
def countOn (counts : List (String × Int)) (date : Int) : Int :=
  (mapGet counts (formatDate date)).getD 0

/-- The sum of the commit counts of the dates of weekday row `i` over the week
columns. -/
def rowCellTotal (monday : Int) (counts : List (String × Int)) (weekCount i : Nat) : Int :=
  ((List.range weekCount).map
    (fun (w : Nat) => countOn counts (addDays monday ((w : Int) * 7 + (i : Int))))).sum

/-! ## Displayed text -/

/-- The characters written to standard output by a list of print calls. -/
def outputChars (out : List String) : List Char := out.flatMap String.data

/-- The characters of a text that a terminal displays. -/
def visibleChars (l : List Char) : List Char := visibleAux l.length l

/-- A cell of the matrix: it displays one character, whatever follows it. -/
def CellLike (s : String) (v : Char) : Prop :=
  ∀ rest : List Char, visibleChars (s.data ++ rest) = v :: visibleChars rest

/-! ## Checks of the embedding on concrete inputs -/

/-- Three log lines, two of them on the same date. -/
theorem parseLog_three_lines :
    parseLog "2024-01-02 abc1234  (HEAD -> main)\n2024-01-02 def5678 \n2024-01-01 0123abc "
      = some [("2024-01-02", [⟨"abc1234", "(HEAD -> main)"⟩, ⟨"def5678", ""⟩]),
              ("2024-01-01", [⟨"0123abc", ""⟩])] := by decide

/-- A non-blank line with a single field makes `parts[1]` fail. -/
theorem parseLog_single_field : parseLog "oops" = none := by decide

/-- One commit on Monday 2024-01-01 and three on Tuesday 2024-01-02. -/
theorem aggregate_two_days :
    aggregate [("2024-01-01", [⟨"a", ""⟩]), ("2024-01-02", [⟨"b", ""⟩, ⟨"c", ""⟩, ⟨"d", ""⟩])]
      = ([("2024-01-01", 1), ("2024-01-02", 3)], [1, 3, 0, 0, 0, 0, 0]) := by decide

/-- Ten weeks from Monday 2024-01-01: the first Mondays of January, February
and March are 01-01, 02-05 and 03-04. -/
theorem monthLabels_ten_weeks :
    monthLabels 19723 10 = ["Jan", "", "", "", "", "Feb", "", "", "", "Mar"] := by decide

/-- The matrix of a one-week grid. -/
theorem fillMatrix_two_days :
    fillMatrix 19723 19724 [("2024-01-01", 1), ("2024-01-02", 3)] 1
      = [[colorize 1 false], [colorize 3 false], [" "], [" "], [" "], [" "], [" "]] := by
  decide

/-- Calendar dates of some day numbers, leap days and the ends of the range of
four-digit years included. -/
theorem civil_dates :
    civil 0 = (1970, 1, 1) ∧ civil 19723 = (2024, 1, 1) ∧ civil 19782 = (2024, 2, 29)
    ∧ civil (-1) = (1969, 12, 31) ∧ civil 11016 = (2000, 2, 29)
    ∧ civil (-25508) = (1900, 3, 1) ∧ civil (-719528) = (0, 1, 1)
    ∧ civil 2932896 = (9999, 12, 31) ∧ civil 19358 = (2023, 1, 1) := by decide

/-- Day numbers of some calendar dates. -/
theorem daysFromCivil_dates :
    daysFromCivil 2024 1 1 = 19723 ∧ daysFromCivil 2024 3 1 = 19783
    ∧ daysFromCivil 1970 1 1 = 0 ∧ daysFromCivil 9999 12 31 = 2932896 := by decide

/-- Monday 2024-01-01, Sunday 2024-01-07 and Thursday 1970-01-01. -/
theorem weekday_dates : Weekday 19723 = 1 ∧ Weekday 19729 = 0 ∧ Weekday 0 = 4 := by decide

/-- Sunday 2024-01-07 maps to Monday 2024-01-01. -/
theorem monday_of_sunday : getMondaysDateForDate 19729 = 19723 := by decide

/-- Week counts for today one day after, seven days after and 23 days before
the Monday. -/
theorem weekCount_values :
    weekCount 19723 19724 = 1 ∧ weekCount 19723 19730 = 2 ∧ weekCount 19723 19700 = -2 := by
  decide

/-- Elapsed times: one day; New York from noon of Monday 2024-03-04 to noon of
Monday 2024-03-11, with the clocks put forward in between; and a distance of
110006 days, which no duration holds, in both directions. -/
theorem timeSub_values :
    timeSub utc 19724 19723 = 24 * nsPerHour ∧
    timeSub zoneNewYork2024 19793 19786 = 167 * nsPerHour ∧
    timeSub utc 19724 (-90282) = maxDuration ∧
    timeSub utc (-90282) 19724 = minDuration ∧
    weeksTrunc maxDuration = 15250 := by
  decide

/-- The three layouts used by the program. -/
theorem format_values :
    formatDate 19723 = "2024-01-01" ∧ formatDate 19782 = "2024-02-29"
    ∧ formatYearMonth 19782 = "2024-02" ∧ formatMonthAbbr 19782 = "Feb" := by decide

/-- Parsing accepts a leap day and rejects an impossible day, the empty
string and a one-digit month. -/
theorem parseDate_values :
    parseDate "2024-02-29" = some 19782 ∧ parseDate "2023-02-29" = none
    ∧ parseDate "" = none ∧ parseDate "2024-2-29" = none := by decide

/-- Bands and displayed characters of some cells. -/
theorem band_values :
    band 3 false = 3 ∧ band 12 true = 9 ∧ band (-2) true = 0
    ∧ visible (colorize 3 false) = ['3']
    ∧ isSGRColour ("\x1b[30;48;5;22m").data = true := by decide

/-! ## The week grid -/

/-- In a zone whose offset never changes the elapsed time between two readings
is a whole number of days. -/
theorem wholeDays_eq (a b : Int) : wholeDays a b = b - a := by
  unfold wholeDays elapsedDays instant utc nsPerHour nsPerSecond
  omega

/-- The truncated week quotient of an elapsed time that is not negative: the
floor of its whole days divided by 7, the days counted up to the 106751 whole
days of the largest duration. -/
theorem weeksTrunc_saturate (e : Int) (h : 0 ≤ e) :
    weeksTrunc (saturate e) = min (e / (24 * nsPerHour)) 106751 / 7 := by
  unfold weeksTrunc saturate maxDuration minDuration nsPerHour
  rw [if_neg (by omega)]
  split
  · rw [Int.tdiv_eq_ediv (by norm_num) (by norm_num)]
    omega
  · rw [Int.tdiv_eq_ediv h (by norm_num)]
    omega

/-- A reading of a later day is a later instant, when the offset of the zone
grows by at most a day. -/
theorem instant_le (zone : Int → Int) (a b : Int) (h : a ≤ b)
    (hz : zone b - zone a ≤ 86400) : 0 ≤ instant zone b - instant zone a := by
  by_cases heq : a = b
  · subst heq; omega
  · unfold instant nsPerHour nsPerSecond; omega

/-- The week count in terms of the whole days of elapsed time. -/
theorem weekCountIn_eq (zone : Int → Int) (a b : Int) (h : a ≤ b)
    (hz : zone b - zone a ≤ 86400) :
    weekCountIn zone a b = min (elapsedDays zone a b) 106751 / 7 + 1 := by
  unfold weekCountIn timeSub elapsedDays
  rw [weeksTrunc_saturate _ (instant_le zone a b h hz)]

/-- The whole days of elapsed time are the calendar days when the offset of
the later reading is the same or smaller by less than a day. -/
theorem elapsedDays_same (zone : Int → Int) (a b : Int)
    (h1 : zone b ≤ zone a) (h2 : zone a - zone b < 86400) :
    elapsedDays zone a b = b - a := by
  unfold elapsedDays instant nsPerHour nsPerSecond
  omega

/-- The whole days of elapsed time are one less than the calendar days when
the offset of the later reading is larger. -/
theorem elapsedDays_ahead (zone : Int → Int) (a b : Int)
    (h1 : zone a < zone b) (h2 : zone b - zone a ≤ 86400) :
    elapsedDays zone a b = b - a - 1 := by
  unfold elapsedDays instant nsPerHour nsPerSecond
  omega

/-- The week count in terms of calendar days, when the offset of today's
reading is the same as the Monday's or smaller by less than a day and the
elapsed time fits a duration. -/
theorem weekCountIn_calendar (zone : Int → Int) (a b : Int) (h : a ≤ b)
    (h1 : zone b ≤ zone a) (h2 : zone a - zone b < 86400) (hfit : b - a ≤ 106751) :
    weekCountIn zone a b = (b - a) / 7 + 1 := by
  rw [weekCountIn_eq zone a b h (by omega), elapsedDays_same zone a b h1 h2]
  omega

/-- For a number of days from 0 to 106751 in a zone whose offset never changes
the truncated week quotient is the floor of the day count divided by 7. -/
theorem weeksTrunc_timeSub (a b : Int) (h : a ≤ b) (hb : b - a ≤ 106751) :
    weeksTrunc (timeSub utc b a) = (b - a) / 7 := by
  have := weekCountIn_calendar utc a b h (by unfold utc; omega) (by unfold utc; omega) hb
  unfold weekCountIn at this
  omega

/-- The Monday chosen by `getMondaysDateForDate`, as a day number. -/
theorem getMondaysDateForDate_eq (since : Int) :
    getMondaysDateForDate since = since - (since + 3) % 7 := by
  unfold getMondaysDateForDate Weekday addDays
  simp only
  split <;> omega

/-- C1: `getMondaysDateForDate since` is `since` minus `isoWeekday - 1` days
(Monday = 1 ... Sunday = 7); the result is a Monday, is on or before `since`,
is strictly later than `since` minus 7 days, and a Sunday maps to the Monday 6
days earlier. -/
theorem getMondaysDateForDate_spec (since : Int) :
    getMondaysDateForDate since = addDays since (-(isoWeekday since - 1)) ∧
    Weekday (getMondaysDateForDate since) = 1 ∧
    getMondaysDateForDate since ≤ since ∧
    addDays since (-7) < getMondaysDateForDate since ∧
    (Weekday since = 0 → getMondaysDateForDate since = addDays since (-6)) := by
  rw [getMondaysDateForDate_eq]
  unfold isoWeekday Weekday addDays
  refine ⟨by omega, by omega, by omega, by omega, fun h => by omega⟩

/-- C2 fails as stated: with today 2024-01-02 and `--days 110000` there are
110006 whole days from the first-week Monday to today, more than a duration
holds, and the run computes 15251 columns, not `floor(110006 / 7) + 1 = 15716`;
and in New York with cutoff Monday 2024-03-04 and today Monday 2024-03-11,
seven calendar days later but only 167 hours, the run computes 1 column, not
`floor(7 / 7) + 1 = 2`. -/
theorem weekCount_floor_counterexample :
    addDays 19724 (-110000) ≤ 19724 ∧
    wholeDays (getMondaysDateForDate (addDays 19724 (-110000))) 19724 = 110006 ∧
    weekCount (getMondaysDateForDate (addDays 19724 (-110000))) 19724 = 15251 ∧
    wholeDays (getMondaysDateForDate (addDays 19724 (-110000))) 19724 / 7 + 1 = 15716 ∧
    (19786 : Int) ≤ 19793 ∧
    19793 - getMondaysDateForDate 19786 = 7 ∧
    timeSub zoneNewYork2024 19793 (getMondaysDateForDate 19786) = 167 * nsPerHour ∧
    weekCountIn zoneNewYork2024 (getMondaysDateForDate 19786) 19793 = 1 ∧
    (19793 - getMondaysDateForDate 19786) / 7 + 1 = 2 := by
  decide

/-- C2, amended: for `since ≤ today`, the offset of the zone at today's reading
being at most a day larger than at the Monday's, the week count of the run is
`floor(min(E, 106751) / 7) + 1`, where `E` is the number of whole 24-hour days
of elapsed time from the reading of the first-week Monday to today's reading
and 106751 the number of whole days of the largest duration; `E` is the number
of calendar days from the Monday to today when the offset at today's reading
is the same as at the Monday's or smaller by less than a day, and one less
when it is larger. -/
theorem weekCount_eq_floor (zone : Int → Int) (since today : Int) (h : since ≤ today)
    (hz : zone today - zone (getMondaysDateForDate since) ≤ 86400) :
    weekCountIn zone (getMondaysDateForDate since) today
      = min (elapsedDays zone (getMondaysDateForDate since) today) 106751 / 7 + 1 ∧
    maxDuration / (24 * nsPerHour) = 106751 ∧
    (zone today ≤ zone (getMondaysDateForDate since) →
      zone (getMondaysDateForDate since) - zone today < 86400 →
      elapsedDays zone (getMondaysDateForDate since) today
        = today - getMondaysDateForDate since) ∧
    (zone (getMondaysDateForDate since) < zone today →
      elapsedDays zone (getMondaysDateForDate since) today
        = today - getMondaysDateForDate since - 1) := by
  have hm : getMondaysDateForDate since ≤ today := by
    rw [getMondaysDateForDate_eq]; omega
  exact ⟨weekCountIn_eq zone _ _ hm hz, by decide,
    fun h1 h2 => elapsedDays_same zone _ _ h1 h2,
    fun h1 => elapsedDays_ahead zone _ _ h1 hz⟩

/-- Witness for C2 amended: New York, cutoff Monday 2024-03-04, today Monday
2024-03-11 (`E = 6`, one column). -/
theorem weekCount_eq_floor_witness :
    (19786 : Int) ≤ 19793 ∧
    zoneNewYork2024 19793 - zoneNewYork2024 (getMondaysDateForDate 19786) ≤ 86400 ∧
    weekCountIn zoneNewYork2024 (getMondaysDateForDate 19786) 19793
      = min (elapsedDays zoneNewYork2024 (getMondaysDateForDate 19786) 19793) 106751 / 7 + 1 :=
  ⟨by decide, by decide,
    (weekCount_eq_floor zoneNewYork2024 19786 19793 (by decide) (by decide)).1⟩

/-- C3 fails as stated: with cutoff and today both Tuesday 2024-01-02 there is
one whole day from the Monday to today, `ceil(1 / 7) + 1 = 2`, and the run
computes one column. -/
theorem weekCount_ceil_counterexample :
    (19724 : Int) ≤ 19724 ∧
    wholeDays (getMondaysDateForDate 19724) 19724 = 1 ∧
    weekCount (getMondaysDateForDate 19724) 19724 = 1 ∧
    ceilDiv (wholeDays (getMondaysDateForDate 19724) 19724) 7 + 1 = 2 ∧
    weekCount (getMondaysDateForDate 19724) 19724
      ≠ ceilDiv (wholeDays (getMondaysDateForDate 19724) 19724) 7 + 1 := by
  decide

/-- C3, amended: for `since ≤ today`, the offset of the zone at today's reading
being at most a day larger than at the Monday's, the number of columns is
`ceil((D + 1) / 7)`, the number of weeks that hold `D + 1` days, where `D` is
the number of whole 24-hour days of elapsed time from the reading of the
first-week Monday to today's reading, counted up to the 106751 whole days of
the largest duration; it equals `ceil(D / 7) + 1` exactly when `D` is a
multiple of 7 and is `ceil(D / 7)` otherwise. The elapsed days are the
calendar days from the Monday to today when the offset at today's reading is
the same as at the Monday's or smaller by less than a day, and one less when
it is larger. -/
theorem weekCount_eq_ceil (zone : Int → Int) (since today : Int) (h : since ≤ today)
    (hz : zone today - zone (getMondaysDateForDate since) ≤ 86400) :
    weekCountIn zone (getMondaysDateForDate since) today
      = ceilDiv (min (elapsedDays zone (getMondaysDateForDate since) today) 106751 + 1) 7 ∧
    (min (elapsedDays zone (getMondaysDateForDate since) today) 106751 % 7 = 0 →
      weekCountIn zone (getMondaysDateForDate since) today
        = ceilDiv (min (elapsedDays zone (getMondaysDateForDate since) today) 106751) 7 + 1) ∧
    (min (elapsedDays zone (getMondaysDateForDate since) today) 106751 % 7 ≠ 0 →
      weekCountIn zone (getMondaysDateForDate since) today
        = ceilDiv (min (elapsedDays zone (getMondaysDateForDate since) today) 106751) 7) ∧
    (zone today ≤ zone (getMondaysDateForDate since) →
      zone (getMondaysDateForDate since) - zone today < 86400 →
      elapsedDays zone (getMondaysDateForDate since) today
        = today - getMondaysDateForDate since) ∧
    (zone (getMondaysDateForDate since) < zone today →
      elapsedDays zone (getMondaysDateForDate since) today
        = today - getMondaysDateForDate since - 1) := by
  have hm : getMondaysDateForDate since ≤ today := by
    rw [getMondaysDateForDate_eq]; omega
  rw [weekCountIn_eq zone _ _ hm hz]
  refine ⟨?_, ?_, ?_, fun h1 h2 => elapsedDays_same zone _ _ h1 h2,
    fun h1 => elapsedDays_ahead zone _ _ h1 hz⟩
  · unfold ceilDiv; omega
  · intro h7; unfold ceilDiv; omega
  · intro h7; unfold ceilDiv; omega

/-- Witness for C3 amended: cutoff Wednesday 2024-01-03, today Tuesday
2024-01-16 in a zone whose offset never changes (`D = 15`, three columns). -/
theorem weekCount_eq_ceil_witness :
    (19725 : Int) ≤ 19738 ∧
    utc 19738 - utc (getMondaysDateForDate 19725) ≤ 86400 ∧
    weekCountIn utc (getMondaysDateForDate 19725) 19738
      = ceilDiv (min (elapsedDays utc (getMondaysDateForDate 19725) 19738) 106751 + 1) 7 ∧
    weekCountIn utc (getMondaysDateForDate 19725) 19738 = 3 :=
  ⟨by decide, by decide,
    (weekCount_eq_ceil utc 19725 19738 (by decide) (by decide)).1, by decide⟩

/-- C4 fails as stated: in New York with cutoff Monday 2024-03-04 and today
Monday 2024-03-11 the clocks went forward in between, 167 hours have elapsed
and the run computes one column, which holds 2024-03-04 through 2024-03-10:
today is in no column. -/
theorem grid_covers_window_counterexample :
    (19786 : Int) ≤ 19793 ∧
    getMondaysDateForDate 19786 = 19786 ∧
    weekCountIn zoneNewYork2024 (getMondaysDateForDate 19786) 19793 = 1 ∧
    ¬ ∃ p : Int × Int,
        0 ≤ p.1 ∧ p.1 < weekCountIn zoneNewYork2024 (getMondaysDateForDate 19786) 19793 ∧
        0 ≤ p.2 ∧ p.2 ≤ 6 ∧
        (19793 : Int) = addDays (getMondaysDateForDate 19786) (p.1 * 7 + p.2) := by
  have hW : weekCountIn zoneNewYork2024 (getMondaysDateForDate 19786) 19793 = 1 := by decide
  have hmon : getMondaysDateForDate 19786 = 19786 := by decide
  refine ⟨by decide, hmon, hW, ?_⟩
  rw [hW, hmon]
  rintro ⟨⟨w, d⟩, h1, h2, h3, h4, h5⟩
  unfold addDays at h5
  simp only at h1 h2 h3 h4 h5
  omega

/-- C4, amended: for `since ≤ today`, the offset of the zone at today's reading
being the same as at the Monday's or smaller by less than a day, and today at
most 106751 days after the Monday (the whole days of the largest duration),
every date `x` with `since ≤ x ≤ today` is `monday + 7*w + d` for exactly one
column `0 ≤ w < W` and row `0 ≤ d ≤ 6`, and today lies in the last column
`W - 1`. -/
theorem grid_covers_window (zone : Int → Int) (since today : Int) (h : since ≤ today)
    (hz1 : zone today ≤ zone (getMondaysDateForDate since))
    (hz2 : zone (getMondaysDateForDate since) - zone today < 86400)
    (hfit : today - getMondaysDateForDate since ≤ 106751) :
    (∀ x : Int, since ≤ x → x ≤ today →
      ∃! p : Int × Int,
        0 ≤ p.1 ∧ p.1 < weekCountIn zone (getMondaysDateForDate since) today ∧
        0 ≤ p.2 ∧ p.2 ≤ 6 ∧
        x = addDays (getMondaysDateForDate since) (p.1 * 7 + p.2)) ∧
    (∃ d : Int, 0 ≤ d ∧ d ≤ 6 ∧
      today = addDays (getMondaysDateForDate since)
        ((weekCountIn zone (getMondaysDateForDate since) today - 1) * 7 + d)) := by
  have hm : getMondaysDateForDate since ≤ today := by
    rw [getMondaysDateForDate_eq]; omega
  have hW := weekCountIn_calendar zone _ _ hm hz1 hz2 hfit
  have hle : getMondaysDateForDate since ≤ since := by
    rw [getMondaysDateForDate_eq]; omega
  rw [hW]
  generalize getMondaysDateForDate since = monday at hm hle ⊢
  unfold addDays
  constructor
  · intro x hx1 hx2
    refine ⟨((x - monday) / 7, (x - monday) % 7), ⟨by omega, by omega, by omega, by omega, by
      show x = monday + ((x - monday) / 7 * 7 + (x - monday) % 7); omega⟩, ?_⟩
    rintro ⟨w, d⟩ ⟨h1, h2, h3, h4, h5⟩
    simp only at h1 h2 h3 h4 h5
    ext <;> simp only <;> omega
  · exact ⟨(today - monday) % 7, by omega, by omega, by omega⟩

/-- Witness for C4 amended: New York, cutoff Wednesday 2024-10-30 (daylight
time), today Tuesday 2024-11-12 (standard time). -/
theorem grid_covers_window_witness :
    (20026 : Int) ≤ 20039 ∧
    zoneNewYork2024 20039 ≤ zoneNewYork2024 (getMondaysDateForDate 20026) ∧
    zoneNewYork2024 (getMondaysDateForDate 20026) - zoneNewYork2024 20039 < 86400 ∧
    20039 - getMondaysDateForDate 20026 ≤ 106751 ∧
    (∃ d : Int, 0 ≤ d ∧ d ≤ 6 ∧
      (20039 : Int) = addDays (getMondaysDateForDate 20026)
        ((weekCountIn zoneNewYork2024 (getMondaysDateForDate 20026) 20039 - 1) * 7 + d)) :=
  ⟨by decide, by decide, by decide, by decide,
    (grid_covers_window zoneNewYork2024 20026 20039 (by decide) (by decide) (by decide)
      (by decide)).2⟩

/-! ## Colour banding -/

/-- Every count of 9 or more is rendered like 9. -/
theorem colorize_ge_nine (c : Int) (b : Bool) (h : 9 ≤ c) :
    colorize c b = colorize 9 b := by
  unfold colorize
  cases b <;> simp [h]

/-- Every count of 0 or less is rendered as the dash. -/
theorem colorize_nonpos (c : Int) (b : Bool) (h : c ≤ 0) : colorize c b = "-" := by
  have h9 : ¬ c ≥ 9 := by omega
  have h8 : ¬ c = 8 := by omega
  have h7 : ¬ c = 7 := by omega
  have h6 : ¬ c = 6 := by omega
  have h5 : ¬ c = 5 := by omega
  have h4 : ¬ c = 4 := by omega
  have h3 : ¬ c = 3 := by omega
  have h2 : ¬ c = 2 := by omega
  have h1 : ¬ c = 1 := by omega
  unfold colorize
  simp only [if_neg h9, if_neg h8, if_neg h7, if_neg h6, if_neg h5, if_neg h4, if_neg h3,
    if_neg h2, if_neg h1, ite_self]

/-- A non-negative count is one of 0, ..., 8 or at least 9. -/
theorem count_cases (c : Int) (h : 0 ≤ c) :
    c = 0 ∨ c = 1 ∨ c = 2 ∨ c = 3 ∨ c = 4 ∨ c = 5 ∨ c = 6 ∨ c = 7 ∨ c = 8 ∨ 9 ≤ c := by
  omega

/-- The band of a non-negative count is the count capped at 9. -/
theorem band_eq_min (c : Int) (b : Bool) (h : 0 ≤ c) : band c b = min c 9 := by
  rcases count_cases c h with h | h | h | h | h | h | h | h | h | h
  any_goals (subst h; cases b <;> decide)
  unfold band
  rw [colorize_ge_nine c b h, min_eq_right h]
  cases b <;> decide

/-- The band of a count of 0 or less is 0. -/
theorem band_nonpos (c : Int) (b : Bool) (h : c ≤ 0) : band c b = 0 := by
  unfold band
  rw [colorize_nonpos c b h]
  decide

/-- C8: with the band of a count the digit that `colorize` shows (0 for the
dash), for both palettes: `band c = min c 9` for `c ≥ 0`, the band is
non-decreasing in the count, equals the count on 1..8, and every count of 9 or
more is rendered exactly like 9 (in particular 10). -/
theorem colorize_band (c c' : Int) (b : Bool) (h0 : 0 ≤ c) (hle : c ≤ c') :
    band c b = min c 9 ∧
    band c b ≤ band c' b ∧
    (1 ≤ c → c ≤ 8 → band c b = c) ∧
    (9 ≤ c → colorize c b = colorize 9 b) ∧
    colorize 10 b = colorize 9 b := by
  have h1 := band_eq_min c b h0
  have h2 := band_eq_min c' b (by omega)
  refine ⟨h1, ?_, fun _ h8 => ?_, colorize_ge_nine c b, colorize_ge_nine 10 b (by decide)⟩
  · rw [h1, h2]; omega
  · rw [h1]; omega

/-- Witness for C8: counts 3 and 12 on the foreground palette. -/
theorem colorize_band_witness :
    band 3 false = min 3 9 ∧ band 3 false ≤ band 12 false :=
  ⟨(colorize_band 3 12 false (by decide) (by decide)).1,
   (colorize_band 3 12 false (by decide) (by decide)).2.1⟩

/-- C9: for every count of 0 or less `colorize` returns exactly `"-"`, which
holds no escape character; for every count of 1 or more the result is an SGR
colour sequence, one digit, and the reset sequence `ESC[0m`. -/
theorem colorize_shape (c : Int) (b : Bool) :
    (c ≤ 0 → colorize c b = "-" ∧ esc ∉ (colorize c b).data) ∧
    (1 ≤ c → ∃ (pre : List Char) (d : Char),
      isSGRColour pre = true ∧ isDigit d = true ∧
      (colorize c b).data = pre ++ d :: sgrReset) := by
  constructor
  · intro h
    rw [colorize_nonpos c b h]
    exact ⟨rfl, by decide⟩
  · intro h
    have key : ∀ k : Int, 1 ≤ k → k ≤ 9 → ∀ b : Bool,
        isSGRColour ((colorize k b).data.take ((colorize k b).data.length - 5)) = true ∧
        isDigit ((colorize k b).data.getD ((colorize k b).data.length - 5) ' ') = true ∧
        (colorize k b).data
          = (colorize k b).data.take ((colorize k b).data.length - 5)
            ++ (colorize k b).data.getD ((colorize k b).data.length - 5) ' ' :: sgrReset := by
      intro k hk1 hk9 b
      have : k = 1 ∨ k = 2 ∨ k = 3 ∨ k = 4 ∨ k = 5 ∨ k = 6 ∨ k = 7 ∨ k = 8 ∨ k = 9 := by
        omega
      rcases this with h | h | h | h | h | h | h | h | h <;> subst h <;> cases b <;> decide
    by_cases h9 : 9 ≤ c
    · rw [colorize_ge_nine c b h9]
      exact ⟨_, _, key 9 (by decide) (by decide) b⟩
    · exact ⟨_, _, key c h (by omega) b⟩

/-! ## Matrix fill -/

/-- Writing a cell keeps the shape of the matrix. -/
theorem shape_setCell (m : List (List String)) (W d w : Nat) (v : String)
    (hm : MatrixShape m W) : MatrixShape (setCell m d w v) W := by
  obtain ⟨h7, hrow⟩ := hm
  refine ⟨by simp [setCell, h7], fun d' hd' => ?_⟩
  have := hrow d' hd'
  simp only [setCell, List.getD_eq_getElem?_getD, List.getElem?_set] at this ⊢
  by_cases hdd : d = d'
  · subst hdd
    have e : m[d]? = some (m[d]) := List.getElem?_eq_getElem (by omega)
    rw [e] at this ⊢
    simpa [h7, hd'] using this
  · simp [hdd, this]

/-- Reading the matrix after `matrix[d][w] = v`. -/
theorem cell_setCell (m : List (List String)) (W d w d' w' : Nat) (v : String)
    (hm : MatrixShape m W) (hd : d < 7) (hw : w < W) :
    cell (setCell m d w v) d' w' = if d' = d ∧ w' = w then v else cell m d' w' := by
  obtain ⟨h7, hrow⟩ := hm
  have hlen := hrow d hd
  have e : m[d]? = some (m[d]) := List.getElem?_eq_getElem (by omega)
  simp only [List.getD_eq_getElem?_getD, e, Option.getD_some] at hlen
  simp only [cell, setCell, List.getD_eq_getElem?_getD, List.getElem?_set, e, Option.getD_some]
  by_cases hdd : d = d'
  · subst hdd
    by_cases hww : w = w'
    · subst hww
      simp [h7, hd, hlen, hw]
    · have : ¬ w' = w := fun h => hww h.symm
      simp [h7, hd, hww, this]
  · have : ¬ d' = d := fun h => hdd h.symm
    simp [hdd, this]

/-- The inner loop after `n` rows: column `w` holds the computed cells in rows
below `n`, every other cell is unchanged. -/
theorem fillColumn_upto (monday today : Int) (counts : List (String × Int))
    (m : List (List String)) (W w : Nat) (hm : MatrixShape m W) (hw : w < W) (n : Nat)
    (hn : n ≤ 7) :
    MatrixShape ((List.range n).foldl
        (fun m d => setCell m d w (cellValue monday today counts w d)) m) W ∧
    ∀ d' w', cell ((List.range n).foldl
        (fun m d => setCell m d w (cellValue monday today counts w d)) m) d' w'
      = if w' = w ∧ d' < n then cellValue monday today counts w d' else cell m d' w' := by
  induction n with
  | zero => exact ⟨hm, fun d' w' => by simp⟩
  | succ n ih =>
    obtain ⟨ihs, ihc⟩ := ih (by omega)
    rw [List.range_succ, List.foldl_append]
    refine ⟨shape_setCell _ _ _ _ _ ihs, fun d' w' => ?_⟩
    simp only [List.foldl_cons, List.foldl_nil]
    rw [cell_setCell _ W n w d' w' _ ihs (by omega) hw, ihc]
    by_cases h1 : d' = n
    · subst h1
      by_cases h2 : w' = w
      · subst h2; simp
      · simp [h2]
    · by_cases h2 : w' = w
      · subst h2
        have : d' < n + 1 ↔ d' < n := by omega
        simp [h1, this]
      · simp [h2]

/-- The inner loop fills column `w` and leaves the other columns unchanged. -/
theorem fillColumn_spec (monday today : Int) (counts : List (String × Int))
    (m : List (List String)) (W w : Nat) (hm : MatrixShape m W) (hw : w < W) :
    MatrixShape (fillColumn monday today counts m w) W ∧
    ∀ d' w', cell (fillColumn monday today counts m w) d' w'
      = if w' = w ∧ d' < 7 then cellValue monday today counts w d' else cell m d' w' :=
  fillColumn_upto monday today counts m W w hm hw 7 (le_refl 7)

/-- The outer loop after `n` columns: every cell of the columns below `n`
holds its computed value. -/
theorem fillMatrix_upto (monday today : Int) (counts : List (String × Int))
    (W n : Nat) (hn : n ≤ W) :
    MatrixShape ((List.range n).foldl (fillColumn monday today counts)
        (List.replicate 7 (List.replicate W ""))) W ∧
    ∀ d' w', d' < 7 → w' < n → cell ((List.range n).foldl (fillColumn monday today counts)
        (List.replicate 7 (List.replicate W ""))) d' w'
      = cellValue monday today counts w' d' := by
  induction n with
  | zero =>
    refine ⟨⟨by simp, fun d hd => ?_⟩, fun d' w' _ h => absurd h (by omega)⟩
    simp only [List.range_zero, List.foldl_nil, List.getD_eq_getElem?_getD,
      List.getElem?_replicate, hd, if_true, Option.getD_some, List.length_replicate]
  | succ n ih =>
    obtain ⟨ihs, ihc⟩ := ih (by omega)
    rw [List.range_succ, List.foldl_append]
    simp only [List.foldl_cons, List.foldl_nil]
    obtain ⟨hs, hc⟩ := fillColumn_spec monday today counts _ W n ihs (by omega)
    refine ⟨hs, fun d' w' hd' hw' => ?_⟩
    rw [hc]
    by_cases h : w' = n
    · simp [h, hd']
    · rw [if_neg (fun hh => h hh.1)]
      exact ihc d' w' hd' (by omega)

/-! ## Aggregation -/

/-- Lookup of another key after appending an entry. -/
theorem mapGet_append_single {V : Type} (m : List (String × V)) (k k' : String) (v : V)
    (h : k ≠ k') : mapGet (m ++ [(k, v)]) k' = mapGet m k' := by
  induction m with
  | nil => simp [mapGet, h]
  | cons e rest ih =>
    obtain ⟨a, b⟩ := e
    simp only [List.cons_append, mapGet]
    split
    · rfl
    · exact ih

/-- Assigning to an absent key appends the entry. -/
theorem mapSet_fresh {V : Type} (m : List (String × V)) (k : String) (v : V)
    (h : mapGet m k = none) : mapSet m k v = m ++ [(k, v)] := by
  induction m with
  | nil => rfl
  | cons e rest ih =>
    obtain ⟨a, b⟩ := e
    simp only [mapGet] at h
    split at h
    · cases h
    · rename_i hne
      simp only [mapSet, if_neg hne, List.cons_append, ih h]

/-- Lookup in a map whose values were transformed. -/
theorem mapGet_map {V W : Type} (f : V → W) (m : List (String × V)) (k : String) :
    mapGet (m.map (fun e => (e.1, f e.2))) k = (mapGet m k).map f := by
  induction m with
  | nil => rfl
  | cons e rest ih =>
    obtain ⟨a, b⟩ := e
    simp only [List.map_cons, mapGet]
    split
    · rfl
    · exact ih

/-- A key that is not among the keys is absent. -/
theorem mapGet_eq_none_of_not_mem {V : Type} (m : List (String × V)) (k : String)
    (h : k ∉ m.map Prod.fst) : mapGet m k = none := by
  induction m with
  | nil => rfl
  | cons e rest ih =>
    obtain ⟨a, b⟩ := e
    simp only [List.map_cons, List.mem_cons, not_or] at h
    have hne : ¬ a = k := fun hh => h.1 hh.symm
    simp only [mapGet, if_neg hne]
    exact ih h.2

/-- Every iteration stores the length of the commit list under the key. -/
theorem aggregateStep_fst (st : List (String × Int) × List Int) (e : String × List Commit) :
    (aggregateStep st e).1 = mapSet st.1 e.1 (e.2.length : Int) := by
  unfold aggregateStep
  cases parseDate e.1 <;> rfl

/-- The count map after the loop, from any state whose keys are fresh. -/
theorem aggregate_counts (m : List (String × List Commit)) :
    ∀ (cm : List (String × Int)) (tot : List Int),
    (m.map Prod.fst).Nodup → (∀ e ∈ m, mapGet cm e.1 = none) →
    (m.foldl aggregateStep (cm, tot)).1 = cm ++ m.map (fun e => (e.1, (e.2.length : Int))) := by
  induction m with
  | nil => intro cm tot _ _; simp
  | cons e rest ih =>
    intro cm tot hnd hfresh
    simp only [List.map_cons, List.nodup_cons] at hnd
    have hst : aggregateStep (cm, tot) e
        = (cm ++ [(e.1, (e.2.length : Int))], (aggregateStep (cm, tot) e).2) := by
      apply Prod.ext
      · rw [aggregateStep_fst]
        exact mapSet_fresh _ _ _ (hfresh e (List.mem_cons_self _ _))
      · rfl
    rw [List.foldl_cons, hst, ih _ _ hnd.2]
    · simp
    · intro e' he'
      have hne : e.1 ≠ e'.1 := fun hh => hnd.1 (hh ▸ List.mem_map_of_mem Prod.fst he')
      rw [mapGet_append_single _ _ _ _ hne]
      exact hfresh e' (List.mem_cons_of_mem _ he')

/-- Adding to an entry keeps the length. -/
theorem addAt_length (l : List Int) (i : Nat) (n : Int) : (addAt l i n).length = l.length := by
  induction l generalizing i with
  | nil => rfl
  | cons x xs ih => cases i <;> simp [addAt, ih]

/-- Adding `n` to an entry adds `n` to the sum. -/
theorem addAt_sum (l : List Int) (i : Nat) (n : Int) (h : i < l.length) :
    (addAt l i n).sum = l.sum + n := by
  induction l generalizing i with
  | nil => simp at h
  | cons x xs ih =>
    cases i with
    | zero => simp [addAt]; omega
    | succ i =>
      simp only [List.length_cons, Nat.succ_lt_succ_iff] at h
      simp [addAt, ih i h]; omega

/-- Reading the totals after `totals[i] += n`. -/
theorem addAt_getD (l : List Int) (i j : Nat) (n : Int) (h : i < l.length) :
    (addAt l i n).getD j 0 = l.getD j 0 + (if j = i then n else 0) := by
  induction l generalizing i j with
  | nil => simp at h
  | cons x xs ih =>
    cases i with
    | zero =>
      cases j with
      | zero => simp [addAt]
      | succ j => simp [addAt]
    | succ i =>
      simp only [List.length_cons, Nat.succ_lt_succ_iff] at h
      cases j with
      | zero => simp [addAt]
      | succ j =>
        simp only [addAt, List.getD_cons_succ, ih i j h]
        simp

/-- The remapping of the code is the weekday index of the spec. -/
theorem weekdayIndex_eq (t : Int) : weekdayIndex (Weekday t) = specWeekdayIndex t := by
  unfold weekdayIndex specWeekdayIndex Weekday
  split <;> omega

/-- The weekday index is in 0..6. -/
theorem specWeekdayIndex_range (t : Int) : 0 ≤ specWeekdayIndex t ∧ specWeekdayIndex t ≤ 6 := by
  unfold specWeekdayIndex Weekday
  omega

/-- The totals after the loop, from any state with seven totals: length,
sum and every entry. -/
theorem aggregate_totals (m : List (String × List Commit)) :
    ∀ (cm : List (String × Int)) (tot : List Int), tot.length = 7 →
    (m.foldl aggregateStep (cm, tot)).2.length = 7 ∧
    (m.foldl aggregateStep (cm, tot)).2.sum = tot.sum + parsedCommitTotal m ∧
    ∀ j : Nat, (m.foldl aggregateStep (cm, tot)).2.getD j 0
      = tot.getD j 0 + specWeekdayTotal m (j : Int) := by
  induction m with
  | nil => intro cm tot h; simp [parsedCommitTotal, specWeekdayTotal, h]
  | cons e rest ih =>
    intro cm tot h
    rw [List.foldl_cons]
    cases hp : parseDate e.1 with
    | none =>
      have hst : aggregateStep (cm, tot) e = (mapSet cm e.1 (e.2.length : Int), tot) := by
        simp [aggregateStep, hp]
      rw [hst]
      obtain ⟨h1, h2, h3⟩ := ih (mapSet cm e.1 (e.2.length : Int)) tot h
      refine ⟨h1, ?_, fun j => ?_⟩
      · rw [h2]; simp [parsedCommitTotal, hp]
      · rw [h3]; simp [specWeekdayTotal, hp]
    | some t =>
      have hr := specWeekdayIndex_range t
      have hst : aggregateStep (cm, tot) e
          = (mapSet cm e.1 (e.2.length : Int),
             addAt tot (specWeekdayIndex t).toNat (e.2.length : Int)) := by
        simp [aggregateStep, hp, weekdayIndex_eq]
      have hlt : (specWeekdayIndex t).toNat < tot.length := by omega
      rw [hst]
      obtain ⟨h1, h2, h3⟩ := ih (mapSet cm e.1 (e.2.length : Int))
        (addAt tot (specWeekdayIndex t).toNat (e.2.length : Int))
        (by rw [addAt_length]; exact h)
      refine ⟨h1, ?_, fun j => ?_⟩
      · rw [h2, addAt_sum _ _ _ hlt]
        simp [parsedCommitTotal, hp]; omega
      · rw [h3, addAt_getD _ _ _ _ hlt]
        have hiff : (j = (specWeekdayIndex t).toNat) ↔ (specWeekdayIndex t = (j : Int)) := by
          omega
        simp only [specWeekdayTotal, List.map_cons, List.sum_cons, hp]
        by_cases hj : j = (specWeekdayIndex t).toNat
        · rw [if_pos hj, if_pos (hiff.1 hj)]; omega
        · rw [if_neg hj, if_neg (fun hh => hj (hiff.2 hh))]; omega

/-- C5: for every row `d < 7` and column `w < weekCount`, with
`date = monday + 7*w + d`: a date strictly after today gives the blank cell
`" "`; otherwise an entry of the count map under the date's `YYYY-MM-DD`
string with a value above 0 gives `colorize count false`, and no entry or a
value of 0 or less gives the same blank `" "`. -/
theorem matrix_cell (monday today : Int) (counts : List (String × Int))
    (weekCount d w : Nat) (hd : d < 7) (hw : w < weekCount) :
    (today < addDays monday ((w : Int) * 7 + (d : Int)) →
      cell (fillMatrix monday today counts weekCount) d w = " ") ∧
    (addDays monday ((w : Int) * 7 + (d : Int)) ≤ today →
      ∀ count : Int,
        mapGet counts (formatDate (addDays monday ((w : Int) * 7 + (d : Int)))) = some count →
        0 < count →
        cell (fillMatrix monday today counts weekCount) d w = colorize count false) ∧
    (addDays monday ((w : Int) * 7 + (d : Int)) ≤ today →
      (mapGet counts (formatDate (addDays monday ((w : Int) * 7 + (d : Int)))) = none ∨
        ∃ count : Int,
          mapGet counts (formatDate (addDays monday ((w : Int) * 7 + (d : Int)))) = some count ∧
          count ≤ 0) →
      cell (fillMatrix monday today counts weekCount) d w = " ") := by
  have hcell : cell (fillMatrix monday today counts weekCount) d w
      = cellValue monday today counts w d :=
    (fillMatrix_upto monday today counts weekCount weekCount (le_refl _)).2 d w hd hw
  rw [hcell]
  unfold cellValue timeAfter
  refine ⟨fun h => ?_, fun h count hget hpos => ?_, fun h hno => ?_⟩
  · simp [h]
  · have : ¬ today < addDays monday ((w : Int) * 7 + (d : Int)) := by omega
    simp [this, hget, hpos]
  · have : ¬ today < addDays monday ((w : Int) * 7 + (d : Int)) := by omega
    rcases hno with hnone | ⟨count, hget, hle⟩
    · simp [this, hnone]
    · have hc : ¬ 0 < count := by omega
      simp [this, hget, hc]

/-- Witness for C5: Monday 2024-01-01 with today Tuesday 2024-01-02 and three
commits on the Tuesday; the Tuesday cell of column 0. -/
theorem matrix_cell_witness :
    cell (fillMatrix 19723 19724 [("2024-01-01", 1), ("2024-01-02", 3)] 1) 1 0
      = colorize 3 false :=
  (matrix_cell 19723 19724 [("2024-01-01", 1), ("2024-01-02", 3)] 1 1 0
    (by decide) (by decide)).2.1 (by decide) 3 (by decide) (by decide)

/-- In a map (keys occurring once) a lookup finds exactly the entries. -/
theorem mapGet_eq_some_iff {V : Type} (m : List (String × V)) (k : String) (v : V)
    (hnd : (m.map Prod.fst).Nodup) : mapGet m k = some v ↔ (k, v) ∈ m := by
  induction m with
  | nil => simp [mapGet]
  | cons e rest ih =>
    obtain ⟨a, b⟩ := e
    simp only [List.map_cons, List.nodup_cons] at hnd
    simp only [mapGet, List.mem_cons, Prod.mk.injEq]
    by_cases hak : a = k
    · subst hak
      simp only [if_true, Option.some.injEq, true_and]
      constructor
      · intro h; exact Or.inl h.symm
      · rintro (h | h)
        · exact h.symm
        · exact absurd (List.mem_map_of_mem Prod.fst h) hnd.1
    · rw [if_neg hak, ih hnd.2]
      constructor
      · intro h; exact Or.inr h
      · rintro (h | h)
        · exact absurd h.1.symm hak
        · exact h

/-- A lookup does not depend on the order of the entries. -/
theorem mapGet_perm {V : Type} (m m' : List (String × V)) (k : String)
    (hnd : (m.map Prod.fst).Nodup) (hp : m.Perm m') : mapGet m' k = mapGet m k := by
  have hnd' : (m'.map Prod.fst).Nodup := (hp.map Prod.fst).nodup_iff.1 hnd
  apply Option.ext
  intro v
  simp only [Option.mem_def]
  rw [mapGet_eq_some_iff m' k v hnd', mapGet_eq_some_iff m k v hnd]
  exact hp.symm.mem_iff

/-- The weekday totals computed by the loop are the totals of the spec. -/
theorem weekdayTotals_eq (m : List (String × List Commit)) :
    weekdayTotals m = (List.range 7).map (fun (j : Nat) => specWeekdayTotal m (j : Int)) := by
  obtain ⟨hlen, _, hget⟩ := aggregate_totals m [] (List.replicate 7 0) (by simp)
  apply List.ext_getElem
  · simpa [weekdayTotals, aggregate] using hlen
  · intro i h1 h2
    have := hget i
    rw [List.getD_eq_getElem _ _ (by simpa [weekdayTotals, aggregate] using h1)] at this
    simp only [weekdayTotals, aggregate, List.getElem_map, List.getElem_range]
    have hz : (List.replicate 7 (0 : Int)).getD i 0 = 0 := by
      simp only [List.getD_eq_getElem?_getD, List.getElem?_replicate]
      split <;> rfl
    rw [this, hz, zero_add]

/-- The count map computed by the loop holds each key with the length of its
commit list. -/
theorem commitCountByDate_eq (m : List (String × List Commit))
    (hnd : (m.map Prod.fst).Nodup) :
    commitCountByDate m = m.map (fun e => (e.1, (e.2.length : Int))) := by
  have := aggregate_counts m [] (List.replicate 7 0) hnd (fun _ _ => rfl)
  simpa [commitCountByDate, aggregate] using this

/-- C6 fails as stated: the log line ` abc1234 ` (a commit whose date field
is empty) yields a map with the key `""`, which does not parse as a date; its
commit is counted in `commitCountByDate` and in no weekday total. -/
theorem weekdayTotals_sum_counterexample :
    parseLog " abc1234 " = some [("", [⟨"abc1234", ""⟩])] ∧
    (List.map Prod.fst [("", [(⟨"abc1234", ""⟩ : Commit)])]).Nodup ∧
    (weekdayTotals [("", [⟨"abc1234", ""⟩])]).sum = 0 ∧
    countTotal (commitCountByDate [("", [⟨"abc1234", ""⟩])]) = 1 ∧
    (weekdayTotals [("", [⟨"abc1234", ""⟩])]).sum
      ≠ countTotal (commitCountByDate [("", [⟨"abc1234", ""⟩])]) := by
  decide

/-- C6, amended: for every commit map, the sum of the weekday totals equals
the sum of the commit counts over the keys that parse as dates, the sum of all
values of `commitCountByDate` is the sum of all commit counts, and the two sums
are equal when every key parses as a date. -/
theorem weekdayTotals_sum (m : List (String × List Commit))
    (hnd : (m.map Prod.fst).Nodup) :
    (weekdayTotals m).sum = parsedCountTotal (commitCountByDate m) ∧
    (weekdayTotals m).sum = parsedCommitTotal m ∧
    countTotal (commitCountByDate m) = (m.map (fun e => (e.2.length : Int))).sum ∧
    ((∀ e ∈ m, (parseDate e.1).isSome = true) →
      (weekdayTotals m).sum = countTotal (commitCountByDate m)) := by
  have hsum : (weekdayTotals m).sum = parsedCommitTotal m := by
    have := (aggregate_totals m [] (List.replicate 7 0) (by simp)).2.1
    simpa [weekdayTotals, aggregate] using this
  have hcount : countTotal (commitCountByDate m) = (m.map (fun e => (e.2.length : Int))).sum := by
    rw [commitCountByDate_eq m hnd]
    simp [countTotal, Function.comp_def]
  have hparsed : parsedCountTotal (commitCountByDate m) = parsedCommitTotal m := by
    rw [commitCountByDate_eq m hnd]
    simp [parsedCountTotal, parsedCommitTotal, Function.comp_def]
  refine ⟨hsum.trans hparsed.symm, hsum, hcount, fun hall => ?_⟩
  rw [hsum, hcount]
  unfold parsedCommitTotal
  congr 1
  apply List.map_congr_left
  intro e he
  have := hall e he
  cases hp : parseDate e.1 with
  | none => rw [hp] at this; cases this
  | some t => rfl

/-- Witness for C6 amended: one dated key and one key that is not a date. -/
theorem weekdayTotals_sum_witness :
    (weekdayTotals [("2024-01-01", [⟨"a", ""⟩]), ("not a date", [⟨"b", ""⟩])]).sum
      = parsedCountTotal
          (commitCountByDate [("2024-01-01", [⟨"a", ""⟩]), ("not a date", [⟨"b", ""⟩])]) :=
  (weekdayTotals_sum [("2024-01-01", [⟨"a", ""⟩]), ("not a date", [⟨"b", ""⟩])]
    (by decide)).1

/-- C7: aggregation maps every key to the length of its commit list; for
every `i` in 0..6 `weekdayTotals[i]` is the sum of those lengths over the keys
that parse as dates with weekday index `(nativeWeekday + 6) % 7 = i`; the
branch "Sunday to 6, otherwise native - 1" agrees with `(native + 6) % 7` on
0..6; and visiting the entries in another order gives the same totals and the
same counts. -/
theorem aggregate_refines (m m' : List (String × List Commit))
    (hnd : (m.map Prod.fst).Nodup) (hp : m.Perm m') :
    (∀ k : String,
      mapGet (commitCountByDate m) k = (mapGet m k).map (fun cs => (cs.length : Int))) ∧
    (weekdayTotals m).length = 7 ∧
    (∀ i : Nat, i < 7 → (weekdayTotals m).getD i 0 = specWeekdayTotal m (i : Int)) ∧
    (∀ wd : Int, 0 ≤ wd → wd ≤ 6 → weekdayIndex wd = (wd + 6) % 7) ∧
    weekdayTotals m' = weekdayTotals m ∧
    (∀ k : String, mapGet (commitCountByDate m') k = mapGet (commitCountByDate m) k) := by
  have hnd' : (m'.map Prod.fst).Nodup := (hp.map Prod.fst).nodup_iff.1 hnd
  have hcount : ∀ (l : List (String × List Commit)), (l.map Prod.fst).Nodup → ∀ k : String,
      mapGet (commitCountByDate l) k = (mapGet l k).map (fun cs => (cs.length : Int)) := by
    intro l hl k
    rw [commitCountByDate_eq l hl]
    exact mapGet_map (fun cs => (cs.length : Int)) l k
  refine ⟨hcount m hnd, ?_, fun i hi => ?_, fun wd h0 h6 => ?_, ?_, fun k => ?_⟩
  · rw [weekdayTotals_eq]; simp
  · rw [weekdayTotals_eq]
    simp [List.getD_eq_getElem?_getD, hi]
  · unfold weekdayIndex; split <;> omega
  · rw [weekdayTotals_eq, weekdayTotals_eq]
    apply List.map_congr_left
    intro j _
    unfold specWeekdayTotal
    exact ((hp.map _).sum_eq).symm
  · rw [hcount m hnd, hcount m' hnd', mapGet_perm m m' k hnd hp]

/-- Witness for C7: two dated keys visited in either order. -/
theorem aggregate_refines_witness :
    weekdayTotals [("2024-01-02", [⟨"b", ""⟩, ⟨"c", ""⟩]), ("2024-01-01", [⟨"a", ""⟩])]
      = weekdayTotals [("2024-01-01", [⟨"a", ""⟩]), ("2024-01-02", [⟨"b", ""⟩, ⟨"c", ""⟩])] :=
  (aggregate_refines [("2024-01-01", [⟨"a", ""⟩]), ("2024-01-02", [⟨"b", ""⟩, ⟨"c", ""⟩])]
    [("2024-01-02", [⟨"b", ""⟩, ⟨"c", ""⟩]), ("2024-01-01", [⟨"a", ""⟩])]
    (by decide) (List.Perm.swap _ _ _)).2.2.2.2.1

/-! ## Month labels -/

/-- The month of a date is in 1..12. -/
theorem Month_range (t : Int) : 1 ≤ Month t ∧ Month t ≤ 12 := by
  unfold Month civil
  simp only
  split <;> omega

/-- Every month abbreviation has 3 letters. -/
theorem shortMonthName_length (m : Int) (h1 : 1 ≤ m) (h12 : m ≤ 12) :
    (shortMonthName m).length = 3 := by
  have : m = 1 ∨ m = 2 ∨ m = 3 ∨ m = 4 ∨ m = 5 ∨ m = 6 ∨ m = 7 ∨ m = 8 ∨ m = 9 ∨ m = 10
      ∨ m = 11 ∨ m = 12 := by omega
  rcases this with h | h | h | h | h | h | h | h | h | h | h | h <;> subst h <;> decide

/-- Lookup after an assignment. -/
theorem mapGet_mapSet {V : Type} (m : List (String × V)) (k k' : String) (v : V) :
    mapGet (mapSet m k v) k' = if k = k' then some v else mapGet m k' := by
  induction m with
  | nil => simp [mapSet, mapGet]
  | cons e rest ih =>
    obtain ⟨a, b⟩ := e
    simp only [mapSet]
    by_cases hak : a = k
    · subst hak
      simp only [if_true, mapGet]
      split <;> rfl
    · simp only [if_neg hak, mapGet, ih]
      by_cases hak' : a = k'
      · subst hak'
        have : ¬ k = a := fun h => hak h.symm
        simp [this]
      · simp [hak']

/-- Reading a label row after `labels[i] = a`. -/
theorem getD_set (l : List String) (i j : Nat) (a : String) :
    (l.set i a).getD j "" = if i = j ∧ i < l.length then a else l.getD j "" := by
  simp only [List.getD_eq_getElem?_getD, List.getElem?_set]
  by_cases h : i = j
  · subst h
    by_cases h2 : i < l.length
    · simp [h2]
    · simp [h2, List.getElem?_eq_none (Nat.le_of_not_lt h2)]
  · simp [h]

/-- One iteration of the month-label loop keeps the invariant. -/
theorem labelInv_step (monday : Int) (W n : Nat) (st : List String × List (String × Bool))
    (h : LabelInv monday W n st) :
    LabelInv monday W (n + 1) (monthLabelsStep monday st n) := by
  obtain ⟨hlen, hlab, huniq⟩ := h
  unfold monthLabelsStep
  simp only
  split
  · rename_i hc
    obtain ⟨hday, hnew⟩ := hc
    refine ⟨by simp [hlen], fun w hw => ?_, fun w₁ w₂ h1 h2 hk => ?_⟩
    · simp only [getD_set] at hw ⊢
      simp only [mapGet_mapSet]
      by_cases hwn : n = w ∧ n < st.1.length
      · obtain ⟨rfl, _⟩ := hwn
        simp_all
      · rw [if_neg hwn] at hw ⊢
        obtain ⟨h1, h2, h3, h4⟩ := hlab w hw
        refine ⟨by omega, h2, h3, ?_⟩
        split
        · rfl
        · exact h4
    · simp only [getD_set] at h1 h2
      by_cases hw1 : n = w₁ ∧ n < st.1.length
      · by_cases hw2 : n = w₂ ∧ n < st.1.length
        · exact hw1.1.symm.trans hw2.1
        · rw [if_neg hw2] at h2
          have := (hlab w₂ h2).2.2.2
          rw [← hk, ← hw1.1, ] at this
          rw [this] at hnew
          cases hnew
      · rw [if_neg hw1] at h1
        by_cases hw2 : n = w₂ ∧ n < st.1.length
        · have := (hlab w₁ h1).2.2.2
          rw [hk, ← hw2.1] at this
          rw [this] at hnew
          cases hnew
        · rw [if_neg hw2] at h2
          exact huniq w₁ w₂ h1 h2 hk
  · refine ⟨hlen, fun w hw => ?_, huniq⟩
    obtain ⟨h1, h2⟩ := hlab w hw
    exact ⟨by omega, h2⟩

/-- The invariant holds after every number of iterations. -/
theorem labelInv_loop (monday : Int) (W n : Nat) :
    LabelInv monday W n (monthLabelsLoop monday W n) := by
  induction n with
  | zero =>
    refine ⟨by simp [monthLabelsLoop], fun w hw => ?_, fun w₁ _ hw => ?_⟩ <;>
    · exfalso
      apply hw
      simp only [monthLabelsLoop, List.range_zero, List.foldl_nil, List.getD_eq_getElem?_getD,
        List.getElem?_replicate]
      split <;> rfl
  | succ n ih =>
    have : monthLabelsLoop monday W (n + 1)
        = monthLabelsStep monday (monthLabelsLoop monday W n) n := by
      simp [monthLabelsLoop, List.range_succ, List.foldl_append]
    rw [this]
    exact labelInv_step monday W n _ ih

/-- C10: the label row has one entry per column; a column is labelled only
if the day of month of its `weekStart = monday + 7*w` is at most 7, and then
its label is the 3-letter abbreviation of the month of `weekStart`; two
labelled columns never share a year-month. -/
theorem monthLabels_spec (monday : Int) (weekCount : Nat) :
    (monthLabels monday weekCount).length = weekCount ∧
    (∀ w : Nat, (monthLabels monday weekCount).getD w "" ≠ "" →
      w < weekCount ∧ Day (weekStart monday w) ≤ 7 ∧
      (monthLabels monday weekCount).getD w "" = shortMonthName (Month (weekStart monday w)) ∧
      ((monthLabels monday weekCount).getD w "").length = 3) ∧
    (∀ w₁ w₂ : Nat,
      (monthLabels monday weekCount).getD w₁ "" ≠ "" →
      (monthLabels monday weekCount).getD w₂ "" ≠ "" →
      Year (weekStart monday w₁) = Year (weekStart monday w₂) →
      Month (weekStart monday w₁) = Month (weekStart monday w₂) →
      w₁ = w₂) := by
  obtain ⟨hlen, hlab, huniq⟩ := labelInv_loop monday weekCount weekCount
  refine ⟨hlen, fun w hw => ?_, fun w₁ w₂ h1 h2 hy hm => ?_⟩
  · obtain ⟨h1, h2, h3, _⟩ := hlab w hw
    have hr := Month_range (weekStart monday w)
    refine ⟨h1, h2, h3, ?_⟩
    show ((monthLabelsLoop monday weekCount weekCount).1.getD w "").length = 3
    rw [h3]
    exact shortMonthName_length _ hr.1 hr.2
  · apply huniq w₁ w₂ h1 h2
    unfold formatYearMonth
    rw [hy, hm]

/-! ## The commit source -/

/-- With a limit of one part the string is returned whole. -/
theorem splitN_one (l : List Char) : splitN ' ' l 1 = [l] := by
  cases l <;> rfl

/-- Without a space there is one part. -/
theorem splitN_no_sep (l : List Char) (n : Nat) (h : ' ' ∉ l) :
    splitN ' ' l (n + 2) = [l] := by
  induction l with
  | nil => rfl
  | cons c cs ih =>
    simp only [List.mem_cons, not_or] at h
    have hc : ¬ c = ' ' := fun hh => h.1 hh.symm
    simp only [splitN, if_neg hc, ih h.2]

/-- With a space, the first part is the first field and the rest is split
with one part less. -/
theorem splitN_sep (l : List Char) (n : Nat) (h : ' ' ∈ l) :
    splitN ' ' l (n + 2) = specDateField l :: splitN ' ' (afterField l) (n + 1) := by
  induction l with
  | nil => simp at h
  | cons c cs ih =>
    by_cases hc : c = ' '
    · subst hc
      simp [splitN, specDateField, afterField]
    · have hmem : ' ' ∈ cs := by
        rcases List.mem_cons.1 h with h | h
        · exact absurd h.symm hc
        · exact h
      simp only [splitN, if_neg hc, ih hmem]
      simp [specDateField, afterField, hc]

/-- A string without a space is its own first field. -/
theorem specDateField_no_sep (l : List Char) (h : ' ' ∉ l) : specDateField l = l := by
  unfold specDateField
  rw [List.takeWhile_eq_self_iff]
  intro c hc
  simp only [ne_eq, decide_eq_true_eq]
  exact fun hh => h (hh ▸ hc)

/-- Nothing follows the only field of a string without a space. -/
theorem afterField_no_sep (l : List Char) (h : ' ' ∉ l) : afterField l = [] := by
  unfold afterField
  have : l.dropWhile (fun c => decide (c ≠ ' ')) = [] := by
    rw [List.dropWhile_eq_nil_iff]
    intro c hc
    simp only [ne_eq, decide_eq_true_eq]
    exact fun hh => h (hh ▸ hc)
  rw [this]; rfl

/-- The fields that `strings.SplitN(line, " ", 3)` returns for a line with a
space are the fields of the spec. -/
theorem splitN_three (line : List Char) (h : ' ' ∈ line) :
    splitN ' ' line 3
      = specDateField line :: specHashField line ::
          (if ' ' ∈ afterField line then [afterField (afterField line)] else []) := by
  rw [splitN_sep line 1 h]
  by_cases h2 : ' ' ∈ afterField line
  · rw [splitN_sep _ 0 h2, if_pos h2, splitN_one]
    rfl
  · rw [splitN_no_sep _ 0 h2, if_neg h2, specHashField, specDateField_no_sep _ h2]

/-- Trimming the empty string. -/
theorem trimSpace_nil : trimSpace [] = [] := rfl

/-- A non-blank line with a space adds its record under its first field. -/
theorem parseLine_record (cm : List (String × List Commit)) (line : List Char)
    (hb : trimSpace line ≠ []) (h : ' ' ∈ line) :
    parseLine cm line
      = some (mapSet cm (specRecord line).1
          ((mapGet cm (specRecord line).1).getD [] ++ [(specRecord line).2])) := by
  unfold parseLine
  rw [if_neg hb, splitN_three line h]
  by_cases h2 : ' ' ∈ afterField line
  · rw [if_pos h2]
    rfl
  · rw [if_neg h2]
    simp only [specRecord, specTagsField]
    rw [afterField_no_sep _ h2]
    rfl

/-- A blank line is skipped. -/
theorem parseLine_blank (cm : List (String × List Commit)) (line : List Char)
    (hb : trimSpace line = []) : parseLine cm line = some cm := by
  unfold parseLine
  rw [if_pos hb]

/-- The keys after an assignment. -/
theorem keys_mapSet {V : Type} (m : List (String × V)) (k : String) (v : V) :
    (mapSet m k v).map Prod.fst
      = if k ∈ m.map Prod.fst then m.map Prod.fst else m.map Prod.fst ++ [k] := by
  induction m with
  | nil => simp [mapSet]
  | cons e rest ih =>
    obtain ⟨a, b⟩ := e
    by_cases hak : a = k
    · subst hak
      simp [mapSet]
    · have hka : ¬ k = a := fun h => hak h.symm
      simp only [mapSet, if_neg hak, List.map_cons, ih, List.mem_cons, hka, false_or]
      split <;> simp

/-- An assignment keeps every key unique. -/
theorem nodup_mapSet {V : Type} (m : List (String × V)) (k : String) (v : V)
    (h : (m.map Prod.fst).Nodup) : ((mapSet m k v).map Prod.fst).Nodup := by
  rw [keys_mapSet]
  split
  · exact h
  · rename_i hk
    rw [List.nodup_append]
    refine ⟨h, List.nodup_singleton k, ?_⟩
    intro a ha hb
    simp only [List.mem_singleton] at hb
    exact hk (hb ▸ ha)

/-- The bucket of a date, line by line. -/
theorem specBucket_cons (line : List Char) (rest : List (List Char)) (D : String) :
    specBucket (line :: rest) D
      = (if trimSpace line ≠ [] ∧ (specRecord line).1 = D then [(specRecord line).2] else [])
        ++ specBucket rest D := by
  unfold specBucket specRecords
  by_cases hb : trimSpace line ≠ []
  · by_cases hD : (specRecord line).1 = D
    · simp [List.filter_cons, hb, hD]
    · simp [List.filter_cons, hb, hD]
  · simp [List.filter_cons, hb]

/-- The line loop from any map: it ends, and the bucket of every date gains
the records of that date in the order of the lines. -/
theorem parseLines_spec (lines : List (List Char)) :
    ∀ cm : List (String × List Commit), GoodMap cm →
    (∀ line ∈ lines, trimSpace line ≠ [] → ' ' ∈ line) →
    ∃ m, lines.foldlM parseLine cm = some m ∧ GoodMap m ∧
      ∀ D, bucketOf m D = bucketOf cm D ++ specBucket lines D := by
  induction lines with
  | nil =>
    intro cm hg _
    exact ⟨cm, rfl, hg, fun D => by simp [specBucket, specRecords]⟩
  | cons line rest ih =>
    intro cm hg hl
    have hrest : ∀ l ∈ rest, trimSpace l ≠ [] → ' ' ∈ l :=
      fun l hl' => hl l (List.mem_cons_of_mem _ hl')
    rw [List.foldlM_cons]
    by_cases hb : trimSpace line = []
    · rw [parseLine_blank cm line hb]
      obtain ⟨m, hm, hgm, hbm⟩ := ih cm hg hrest
      refine ⟨m, hm, hgm, fun D => ?_⟩
      rw [hbm, specBucket_cons]
      simp [hb]
    · rw [parseLine_record cm line hb (hl line (List.mem_cons_self _ _) hb)]
      have hg' : GoodMap (mapSet cm (specRecord line).1
          ((mapGet cm (specRecord line).1).getD [] ++ [(specRecord line).2])) := by
        refine ⟨nodup_mapSet _ _ _ hg.1, fun D => ?_⟩
        rw [mapGet_mapSet]
        split
        · simp
        · exact hg.2 D
      obtain ⟨m, hm, hgm, hbm⟩ := ih _ hg' hrest
      refine ⟨m, hm, hgm, fun D => ?_⟩
      rw [hbm, specBucket_cons]
      unfold bucketOf
      rw [mapGet_mapSet]
      by_cases hD : (specRecord line).1 = D
      · subst hD
        simp [hb]
      · simp [hD]

/-- A line of the shape holds a space. -/
theorem lineShape_mem (line date hash : List Char) (deco : Option (List Char))
    (h : LineShape line date hash deco) : ' ' ∈ line := by
  obtain ⟨_, _, rfl⟩ := h
  simp

/-- First field of a string that starts with a field and a space. -/
theorem specDateField_append (a b : List Char) (h : ' ' ∉ a) :
    specDateField (a ++ ' ' :: b) = a := by
  induction a with
  | nil => simp [specDateField]
  | cons c cs ih =>
    simp only [List.mem_cons, not_or] at h
    have hc : ¬ c = ' ' := fun hh => h.1 hh.symm
    have := ih h.2
    unfold specDateField at this ⊢
    simp only [ne_eq, decide_not] at this
    simp [hc, this]

/-- What follows a leading field and its space. -/
theorem afterField_append (a b : List Char) (h : ' ' ∉ a) :
    afterField (a ++ ' ' :: b) = b := by
  induction a with
  | nil => simp [afterField]
  | cons c cs ih =>
    simp only [List.mem_cons, not_or] at h
    have hc : ¬ c = ' ' := fun hh => h.1 hh.symm
    have := ih h.2
    unfold afterField at this ⊢
    simp only [ne_eq, decide_not, List.drop_one] at this
    simp [hc, this]

/-- The record of a line of the shape `<date> <hash>[ <decoration>]`. -/
theorem specRecord_shape (line date hash : List Char) (deco : Option (List Char))
    (h : LineShape line date hash deco) :
    specRecord line
      = (String.mk date, ⟨String.mk hash, String.mk (trimSpace (deco.getD []))⟩) := by
  obtain ⟨hd, hh, rfl⟩ := h
  unfold specRecord specHashField specTagsField
  rw [specDateField_append _ _ hd, afterField_append _ _ hd]
  cases deco with
  | none =>
    simp only [List.append_nil, Option.getD_none]
    rw [specDateField_no_sep _ hh, afterField_no_sep _ hh]
  | some d =>
    simp only [Option.getD_some]
    rw [specDateField_append _ _ hh, afterField_append _ _ hh]


/-- The empty map is a commit map. -/
theorem goodMap_nil : GoodMap [] := ⟨List.nodup_nil, fun _ => by simp [mapGet]⟩

/-- C11 fails as stated: a line with a single field makes the loop fail at
`parts[1]` (alone or after other lines), and a line that begins with a space
is not skipped but recorded under the empty date. -/
theorem parseLog_malformed_counterexample :
    parseLog "oops" = none ∧
    parseLog "2024-01-01 abc1234 \noops" = none ∧
    parseLog " abc1234 x" = some [("", [⟨"abc1234", "x"⟩])] := by
  decide

/-- C11, amended: when every non-blank line of the text holds a space, the
line loop completes; every blank line (empty or white space only) is skipped
and leaves the map as it is; every non-blank line with a space adds one record
under its first field, whatever that field is. -/
theorem parseLog_completes (output : String)
    (h : ∀ line ∈ splitOn '\n' output.data, trimSpace line ≠ [] → ' ' ∈ line) :
    (∃ m, parseLog output = some m) ∧
    (∀ (cm : List (String × List Commit)) (line : List Char),
      trimSpace line = [] → parseLine cm line = some cm) ∧
    (∀ (cm : List (String × List Commit)) (line : List Char),
      trimSpace line ≠ [] → ' ' ∈ line →
      parseLine cm line
        = some (mapSet cm (String.mk (specDateField line))
            (bucketOf cm (String.mk (specDateField line)) ++ [(specRecord line).2]))) := by
  obtain ⟨m, hm, _, _⟩ := parseLines_spec (splitOn '\n' output.data) [] goodMap_nil h
  exact ⟨⟨m, hm⟩, parseLine_blank, fun cm line hb hs => parseLine_record cm line hb hs⟩

/-- Witness for C11 amended: two commit lines around a blank line. -/
theorem parseLog_completes_witness :
    ∃ m, parseLog "2024-01-02 abc1234 \n  \n2024-01-01 0123abc  (tag: v1)\n" = some m :=
  (parseLog_completes "2024-01-02 abc1234 \n  \n2024-01-01 0123abc  (tag: v1)\n"
    (by decide)).1

/-- C12: when every non-blank line has the shape `<date> <hash>` optionally
followed by a space and a decoration, the loop returns a map whose keys are
exactly the dates that are the first field of a non-blank line; the list under
a date holds one record per such line in the order of the lines, and the
record of a line carries its hash as `SHA` and its trimmed decoration (or the
empty string) as `Tags`. -/
theorem parseLog_spec (output : String)
    (h : ∀ line ∈ splitOn '\n' output.data, trimSpace line ≠ [] →
      ∃ (date hash : List Char) (deco : Option (List Char)), LineShape line date hash deco) :
    (∃ m, parseLog output = some m ∧ (m.map Prod.fst).Nodup ∧
      (∀ D : String, (∃ cs, mapGet m D = some cs)
        ↔ D ∈ (specRecords (splitOn '\n' output.data)).map Prod.fst) ∧
      (∀ (D : String) (cs : List Commit), mapGet m D = some cs →
        cs = specBucket (splitOn '\n' output.data) D)) ∧
    (∀ (line date hash : List Char) (deco : Option (List Char)),
      LineShape line date hash deco →
      specRecord line
        = (String.mk date, ⟨String.mk hash, String.mk (trimSpace (deco.getD []))⟩)) := by
  refine ⟨?_, specRecord_shape⟩
  have h' : ∀ line ∈ splitOn '\n' output.data, trimSpace line ≠ [] → ' ' ∈ line := by
    intro line hl hb
    obtain ⟨date, hash, deco, hs⟩ := h line hl hb
    exact lineShape_mem line date hash deco hs
  obtain ⟨m, hm, hg, hb⟩ := parseLines_spec (splitOn '\n' output.data) [] goodMap_nil h'
  have hb' : ∀ D, bucketOf m D = specBucket (splitOn '\n' output.data) D := by
    intro D
    rw [hb D]
    simp [bucketOf, mapGet]
  refine ⟨m, hm, hg.1, fun D => ?_, fun D cs hcs => ?_⟩
  · have hmem : D ∈ (specRecords (splitOn '\n' output.data)).map Prod.fst
        ↔ specBucket (splitOn '\n' output.data) D ≠ [] := by
      unfold specBucket
      simp only [List.mem_map, ne_eq, List.map_eq_nil_iff, List.filter_eq_nil_iff,
        decide_eq_true_eq, not_forall, Classical.not_imp, not_not]
      constructor
      · rintro ⟨r, hr, rfl⟩; exact ⟨r, hr, rfl⟩
      · rintro ⟨r, hr, rfl⟩; exact ⟨r, hr, rfl⟩
    rw [hmem, ← hb' D]
    unfold bucketOf
    constructor
    · rintro ⟨cs, hcs⟩
      rw [hcs]
      intro hnil
      exact hg.2 D (by rw [hcs]; exact congrArg some hnil)
    · intro hne
      cases hget : mapGet m D with
      | none => rw [hget] at hne; exact absurd rfl hne
      | some cs => exact ⟨cs, rfl⟩
  · rw [← hb' D]
    unfold bucketOf
    rw [hcs]
    rfl

/-- Witness for C12: one line with a decoration. -/
theorem parseLog_spec_witness :
    ∃ m, parseLog "2024-01-02 abc1234  (tag: v1)" = some m ∧ (m.map Prod.fst).Nodup ∧
      (∀ D : String, (∃ cs, mapGet m D = some cs)
        ↔ D ∈ (specRecords (splitOn '\n' ("2024-01-02 abc1234  (tag: v1)").data)).map Prod.fst) ∧
      (∀ (D : String) (cs : List Commit), mapGet m D = some cs →
        cs = specBucket (splitOn '\n' ("2024-01-02 abc1234  (tag: v1)").data) D) :=
  (parseLog_spec "2024-01-02 abc1234  (tag: v1)" (by
    intro line hl _
    have hline : line = ("2024-01-02 abc1234  (tag: v1)").data := by
      have : splitOn '\n' ("2024-01-02 abc1234  (tag: v1)").data
          = [("2024-01-02 abc1234  (tag: v1)").data] := by decide
      rw [this] at hl
      simpa using hl
    subst hline
    exact ⟨("2024-01-02").data, ("abc1234").data, some (" (tag: v1)").data,
      by decide, by decide, by decide⟩)).1

/-! ## The run -/

/-- C14: with `since = today = x` (a look-back window of 0 days) the week
count is 1, whatever the weekday of `x`. -/
theorem weekCount_same_day (x : Int) :
    addDays x (-0) = x ∧ weekCount (getMondaysDateForDate x) x = 1 := by
  refine ⟨by unfold addDays; omega, ?_⟩
  have hm : getMondaysDateForDate x ≤ x := by rw [getMondaysDateForDate_eq]; omega
  unfold weekCount weekCountIn
  rw [weeksTrunc_timeSub _ _ hm (by rw [getMondaysDateForDate_eq]; omega),
    getMondaysDateForDate_eq]
  omega

/-- C13: one commit on 2024-01-01, three on 2024-01-02, `since` 2024-01-01 and
today 2024-01-02: the first-week Monday is 2024-01-01, the week count is 1, the
Monday cell is `colorize 1 false`, the Tuesday cell `colorize 3 false`, the
other five cells are blank, and the weekday totals are `[1,3,0,0,0,0,0]`; the
run as a whole prints the header and these rows. -/
theorem scenario_two_days (a b c d : Commit) :
    parseDate "2024-01-01" = some 19723 ∧ parseDate "2024-01-02" = some 19724 ∧
    Weekday 19724 = 2 ∧
    getMondaysDateForDate 19723 = 19723 ∧
    weekCount (getMondaysDateForDate 19723) 19724 = 1 ∧
    fillMatrix (getMondaysDateForDate 19723) 19724
        (commitCountByDate [("2024-01-01", [a]), ("2024-01-02", [b, c, d])]) 1
      = [[colorize 1 false], [colorize 3 false], [" "], [" "], [" "], [" "], [" "]] ∧
    weekdayTotals [("2024-01-01", [a]), ("2024-01-02", [b, c, d])] = [1, 3, 0, 0, 0, 0, 0] ∧
    (render [("2024-01-01", [a]), ("2024-01-02", [b, c, d])] 19723 19724 []).2 = Outcome.ok ∧
    runE gitExample ["repo"] "" 1 19724
      = (["\n", "    ", " Jan", "\n",
          " Mon ", colorize 1 false ++ " ", "    1 Mon", "\n",
          "     ", colorize 3 false ++ " ", "    3 ", "\n",
          " Wed ", "  ", "    0 Wed", "\n",
          "     ", "  ", "    0 ", "\n",
          " Fri ", "  ", "    0 Fri", "\n",
          "     ", "  ", "    0 ", "\n",
          " Sun ", "  ", "    0 Sun", "\n"], Outcome.ok) := by
  refine ⟨by decide, by decide, by decide, by decide, by decide, rfl, rfl, rfl, by decide⟩

/-- The header walk ends within as many iterations as columns remain. -/
theorem headerLoop_isSome (labels : List String) (W : Nat) :
    ∀ (fuel w : Nat) (out : List String), W ≤ fuel + w →
      ∃ out', headerLoop labels W fuel w out = some out' := by
  intro fuel
  induction fuel with
  | zero =>
    intro w out h
    exact ⟨out, by simp only [headerLoop]; rw [if_neg (by omega)]⟩
  | succ n ih =>
    intro w out h
    simp only [headerLoop]
    split
    · split
      · exact ih _ _ (by omega)
      · exact ih _ _ (by omega)
    · exact ⟨out, rfl⟩

/-- Rendering ends normally whenever the week count is not negative. -/
theorem renderIn_ok (zone : Int → Int) (commitMap : List (String × List Commit))
    (sinceDate now : Int) (out : List String)
    (h : 0 ≤ weekCountIn zone (getMondaysDateForDate sinceDate) now) :
    (renderIn zone commitMap sinceDate now out).2 = Outcome.ok := by
  unfold renderIn
  simp only
  rw [if_neg (by omega)]
  obtain ⟨out', hout⟩ := headerLoop_isSome
    (monthLabels (getMondaysDateForDate sinceDate)
      (weekCountIn zone (getMondaysDateForDate sinceDate) now).toNat)
    (weekCountIn zone (getMondaysDateForDate sinceDate) now).toNat
    (weekCountIn zone (getMondaysDateForDate sinceDate) now).toNat 0
    (out ++ ["\n"] ++ ["    "]) (by omega)
  rw [hout]

/-- C15 fails as stated: with today 2024-01-02, `--days -14` gives a cutoff two
weeks ahead and 0 columns, `--days -21` gives -1 columns and the allocation of
the label row panics right after the first line break is printed. -/
theorem weekCount_negative_days_counterexample :
    weekCount (getMondaysDateForDate (addDays 19724 (-(-14)))) 19724 = 0 ∧
    weekCount (getMondaysDateForDate (addDays 19724 (-(-21)))) 19724 = -1 ∧
    runE (fun _ _ => .ok "") ["repo"] "" (-21) 19724 = (["\n"], Outcome.panic) := by
  decide

/-- C15, amended: for every value of `--days` from 0 to 2147483647 (a cutoff on
or before today, and a day count for which `AddDate` does not wrap around),
the offset of the zone at today's reading being at most a day larger than at
the Monday's, the column count `W` is at least 1 and at most 15251, the label
row has `W` entries, the matrix has 7 rows of `W` cells, `weekdayTotals` has
length 7, and rendering ends normally: no allocation or index fails. -/
theorem grid_allocation (zone : Int → Int) (commitMap : List (String × List Commit))
    (days today : Int) (out : List String) (hdays : 0 ≤ days ∧ days ≤ 2147483647)
    (hz : zone today - zone (getMondaysDateForDate (addDays today (-days))) ≤ 86400) :
    1 ≤ weekCountIn zone (getMondaysDateForDate (addDays today (-days))) today ∧
    weekCountIn zone (getMondaysDateForDate (addDays today (-days))) today ≤ 15251 ∧
    (monthLabels (getMondaysDateForDate (addDays today (-days)))
      (weekCountIn zone (getMondaysDateForDate (addDays today (-days))) today).toNat).length
      = (weekCountIn zone (getMondaysDateForDate (addDays today (-days))) today).toNat ∧
    MatrixShape
      (fillMatrix (getMondaysDateForDate (addDays today (-days))) today
        (commitCountByDate commitMap)
        (weekCountIn zone (getMondaysDateForDate (addDays today (-days))) today).toNat)
      (weekCountIn zone (getMondaysDateForDate (addDays today (-days))) today).toNat ∧
    (weekdayTotals commitMap).length = 7 ∧
    (renderIn zone commitMap (addDays today (-days)) today out).2 = Outcome.ok := by
  have hm : getMondaysDateForDate (addDays today (-days)) ≤ today := by
    rw [getMondaysDateForDate_eq]; unfold addDays; omega
  have h0 := instant_le zone _ _ hm hz
  have hE : 0 ≤ elapsedDays zone (getMondaysDateForDate (addDays today (-days))) today := by
    unfold elapsedDays nsPerHour
    omega
  have hW := weekCountIn_eq zone _ _ hm hz
  have hW1 : 1 ≤ weekCountIn zone (getMondaysDateForDate (addDays today (-days))) today := by
    rw [hW]; omega
  have hW2 : weekCountIn zone (getMondaysDateForDate (addDays today (-days))) today ≤ 15251 := by
    rw [hW]; omega
  refine ⟨hW1, hW2, (labelInv_loop _ _ _).1, (fillMatrix_upto _ _ _ _ _ (le_refl _)).1, ?_,
    renderIn_ok _ _ _ _ _ (by omega)⟩
  rw [weekdayTotals_eq]; simp

/-- Witness for C15 amended: a window of 60 days in New York on Monday
2024-03-11; the cutoff is Thursday 2024-01-11 in standard time. -/
theorem grid_allocation_witness :
    ((0 : Int) ≤ 60 ∧ (60 : Int) ≤ 2147483647) ∧
    zoneNewYork2024 19793
      - zoneNewYork2024 (getMondaysDateForDate (addDays 19793 (-60))) ≤ 86400 ∧
    (1 : Int) ≤ weekCountIn zoneNewYork2024
      (getMondaysDateForDate (addDays 19793 (-60))) 19793 ∧
    (renderIn zoneNewYork2024 [] (addDays 19793 (-60)) 19793 []).2 = Outcome.ok :=
  ⟨by decide, by decide,
   (grid_allocation zoneNewYork2024 [] 60 19793 [] (by decide) (by decide)).1,
   (grid_allocation zoneNewYork2024 [] 60 19793 [] (by decide) (by decide)).2.2.2.2.2⟩

/-- The error message of the query is not the header indent. -/
theorem errorMessage_ne_blanks (err : String) :
    "Error executing git command: " ++ err ++ "\n" ≠ "    " := by
  intro h
  have := congrArg String.data h
  simp only [String.data_append] at this
  simp at this

/-- C16: with standard output the list of printed strings, a run whose commit
query fails returns that error and has printed the error message of the query
and nothing else; and a run that has printed the header indent (the first
string of the month header) is a run whose query succeeded and whose commit
map was built, the output being that of the rendering after aggregation. -/
theorem query_failure (git : String → String → Except String String) (args : List String)
    (repoFlag : String) (days now : Int) :
    (∀ err : String, repoPathOf args repoFlag ≠ "" →
      git (repoPathOf args repoFlag) (formatDate (addDays now (-days))) = .error err →
      runE git args repoFlag days now
        = (["Error executing git command: " ++ err ++ "\n"], Outcome.error err)) ∧
    ("    " ∈ (runE git args repoFlag days now).1 →
      ∃ (output : String) (commitMap : List (String × List Commit)),
        git (repoPathOf args repoFlag) (formatDate (addDays now (-days))) = .ok output ∧
        parseLog output = some commitMap ∧
        runE git args repoFlag days now
          = render commitMap (addDays now (-days)) now []) := by
  constructor
  · intro err hrepo hgit
    unfold runE runEIn
    simp only [if_neg hrepo, getCommitsByDate, hgit]
  · intro hmem
    unfold runE runEIn at hmem ⊢
    simp only at hmem ⊢
    by_cases hrepo : repoPathOf args repoFlag = ""
    · rw [if_pos hrepo] at hmem
      exact absurd hmem (by decide)
    · rw [if_neg hrepo] at hmem ⊢
      unfold getCommitsByDate at hmem ⊢
      cases hgit : git (repoPathOf args repoFlag) (formatDate (addDays now (-days))) with
      | error err =>
        simp only [hgit, List.mem_singleton] at hmem
        exact absurd hmem.symm (errorMessage_ne_blanks err)
      | ok output =>
        simp only [hgit] at hmem ⊢
        cases hp : parseLog output with
        | none =>
          simp only [hp] at hmem
          exact absurd hmem (by simp)
        | some commitMap =>
          exact ⟨output, commitMap, rfl, hp, by simp only [hp]; rfl⟩

/-- Witness for C16: a repository path that does not exist. -/
theorem query_failure_witness :
    runE (fun _ _ => .error "exit status 128") ["/no/such/repo"] "" 365 19724
      = (["Error executing git command: exit status 128\n"], Outcome.error "exit status 128") :=
  (query_failure (fun _ _ => .error "exit status 128") ["/no/such/repo"] "" 365 19724).1
    "exit status 128" (by decide) rfl

/-! ## Colour indices of the two palettes -/

/-- C18 fails as stated: on the background palette the index selected for 2
(154) is smaller than the one selected for 1 (191). -/
theorem colourIndex_background_counterexample :
    (1 : Int) ≤ 1 ∧ (1 : Int) < 2 ∧ (2 : Int) ≤ 9 ∧
    colourIndex (colorize 1 true) = some 191 ∧
    colourIndex (colorize 2 true) = some 154 ∧
    ¬ ((colourIndex (colorize 1 true)).getD 0 < (colourIndex (colorize 2 true)).getD 0) := by
  decide

/-- A count between 1 and 9 is one of nine values. -/
theorem count_between (a : Int) (h1 : 1 ≤ a) (h9 : a ≤ 9) :
    a = 1 ∨ a = 2 ∨ a = 3 ∨ a = 4 ∨ a = 5 ∨ a = 6 ∨ a = 7 ∨ a = 8 ∨ a = 9 := by
  omega

/-- The foreground palette, count by count. -/
theorem colourIndex_foreground (a : Int) (h1 : 1 ≤ a) (h9 : a ≤ 9) :
    colourIndex (colorize a false)
      = some (if a = 1 then 22 else if a = 2 then 28 else if a = 3 then 34
          else if a = 4 then 40 else if a = 5 then 46 else if a = 6 then 82
          else if a = 7 then 118 else if a = 8 then 154 else 191) := by
  rcases count_between a h1 h9 with h | h | h | h | h | h | h | h | h <;> subst h <;> decide

/-- The background palette, count by count. -/
theorem colourIndex_background (a : Int) (h1 : 1 ≤ a) (h9 : a ≤ 9) :
    colourIndex (colorize a true)
      = some (if a = 1 then 191 else if a = 2 then 154 else if a = 3 then 118
          else if a = 4 then 82 else if a = 5 then 46 else if a = 6 then 40
          else if a = 7 then 34 else if a = 8 then 28 else 22) := by
  rcases count_between a h1 h9 with h | h | h | h | h | h | h | h | h <;> subst h <;> decide

/-- C18, amended: for all counts `1 ≤ a < b ≤ 9`, on the foreground palette
the 256-colour index selected for `b` is greater than the one for `a`, and on
the background palette it is smaller: the two palettes run through the same
indices in opposite orders, 9 being 191 in the foreground and 22 in the
background. -/
theorem colourIndex_order (a b : Int) (h1 : 1 ≤ a) (hab : a < b) (h9 : b ≤ 9) :
    (∃ ia ib, colourIndex (colorize a false) = some ia ∧
      colourIndex (colorize b false) = some ib ∧ ia < ib) ∧
    (∃ ia ib, colourIndex (colorize a true) = some ia ∧
      colourIndex (colorize b true) = some ib ∧ ib < ia) ∧
    colourIndex (colorize 9 false) = some 191 ∧
    colourIndex (colorize 9 true) = some 22 := by
  refine ⟨⟨_, _, colourIndex_foreground a h1 (by omega), colourIndex_foreground b (by omega) h9, ?_⟩,
    ⟨_, _, colourIndex_background a h1 (by omega), colourIndex_background b (by omega) h9, ?_⟩,
    by decide, by decide⟩
  · rcases count_between a h1 (by omega) with h | h | h | h | h | h | h | h | h <;> subst h <;>
      rcases count_between b (by omega) h9 with h | h | h | h | h | h | h | h | h <;> subst h <;>
      first | omega | decide
  · rcases count_between a h1 (by omega) with h | h | h | h | h | h | h | h | h <;> subst h <;>
      rcases count_between b (by omega) h9 with h | h | h | h | h | h | h | h | h <;> subst h <;>
      first | omega | decide

/-- Witness for C18 amended: counts 3 and 7. -/
theorem colourIndex_order_witness :
    (∃ ia ib, colourIndex (colorize 3 false) = some ia ∧
      colourIndex (colorize 7 false) = some ib ∧ ia < ib) ∧
    (∃ ia ib, colourIndex (colorize 3 true) = some ia ∧
      colourIndex (colorize 7 true) = some ib ∧ ib < ia) :=
  ⟨(colourIndex_order 3 7 (by decide) (by decide) (by decide)).1,
   (colourIndex_order 3 7 (by decide) (by decide) (by decide)).2.1⟩

/-! ## The calendar: day numbers and dates determine each other -/

/-- The numerator grows with the day of era. -/
theorem yearNumerator_mono (a b : Int) (hab : a ≤ b) :
    yearNumerator a ≤ yearNumerator b := by
  unfold yearNumerator
  omega

/-- On the first day of year `y` the numerator has reached `365 * y`. -/
theorem yearNumerator_lower (y : Int) (h0 : 0 ≤ y) (h1 : y ≤ 399) :
    365 * y ≤ yearNumerator (daysBeforeYear y) := by
  unfold yearNumerator daysBeforeYear
  have hb : 25 * (y / 100) ≤ y / 4 := by omega
  have hd : (365 * y + y / 4 - y / 100) / 1460 ≤ y / 4 := by omega
  have he : y / 100 ≤ (365 * y + y / 4 - y / 100) / 36524 := by omega
  have hf : (365 * y + y / 4 - y / 100) / 146096 = 0 := by omega
  omega

/-- On the last day of year `y` the numerator is still below `365 * (y + 1)`. -/
theorem yearNumerator_upper (y : Int) (h0 : 0 ≤ y) (h1 : y ≤ 398) :
    yearNumerator (daysBeforeYear (y + 1) - 1) ≤ 365 * y + 364 := by
  unfold yearNumerator daysBeforeYear
  have hb : 25 * ((y + 1) / 100) ≤ (y + 1) / 4 := by omega
  have hd : (y + 1) / 4 ≤ (365 * (y + 1) + (y + 1) / 4 - (y + 1) / 100 - 1) / 1460 := by omega
  have he : (365 * (y + 1) + (y + 1) / 4 - (y + 1) / 100 - 1) / 36524 ≤ (y + 1) / 100 := by omega
  have hf : 0 ≤ (365 * (y + 1) + (y + 1) / 4 - (y + 1) / 100 - 1) / 146096 := by omega
  omega

/-- The numerator on the last day of an era. -/
theorem yearNumerator_last : yearNumerator 146096 = 365 * 399 + 364 := by decide


/-- The year of era computed by `civil` is the year whose days hold the day
of era. -/
theorem yearOfEra_spec (doe : Int) (h0 : 0 ≤ doe) (h1 : doe ≤ 146096) :
    0 ≤ yearNumerator doe / 365 ∧ yearNumerator doe / 365 ≤ 399 ∧
    daysBeforeYear (yearNumerator doe / 365) ≤ doe ∧
    (yearNumerator doe / 365 ≤ 398 → doe < daysBeforeYear (yearNumerator doe / 365 + 1)) := by
  have hy0 : 0 ≤ yearNumerator doe / 365 := by unfold yearNumerator; omega
  have hy1 : yearNumerator doe / 365 ≤ 399 := by unfold yearNumerator; omega
  refine ⟨hy0, hy1, ?_, ?_⟩
  · by_contra hlt
    have hpos : 1 ≤ yearNumerator doe / 365 := by
      by_contra hz
      have : yearNumerator doe / 365 = 0 := by omega
      rw [this] at hlt
      unfold daysBeforeYear at hlt
      omega
    have hm := yearNumerator_mono doe (daysBeforeYear (yearNumerator doe / 365) - 1) (by omega)
    have hu := yearNumerator_upper (yearNumerator doe / 365 - 1) (by omega) (by omega)
    rw [show yearNumerator doe / 365 - 1 + 1 = yearNumerator doe / 365 by omega] at hu
    omega
  · intro h398
    by_contra hge
    have hm := yearNumerator_mono (daysBeforeYear (yearNumerator doe / 365 + 1)) doe (by omega)
    have hl := yearNumerator_lower (yearNumerator doe / 365 + 1) (by omega) (by omega)
    omega

/-- The parts of `civil`: era, year of era, day of year and month index, with
their ranges. -/
theorem civil_parts (t : Int) :
    ∃ era yoe doy mp : Int,
      0 ≤ yoe ∧ yoe ≤ 399 ∧ 0 ≤ doy ∧ doy ≤ 365 ∧
      (doy = 365 → (yoe + 1) % 4 = 0 ∧ ((yoe + 1) % 100 ≠ 0 ∨ yoe = 399)) ∧
      t = era * 146097 + daysBeforeYear yoe + doy - 719468 ∧
      mp = (5 * doy + 2) / 153 ∧ 0 ≤ mp ∧ mp ≤ 11 ∧
      civil t = (if (if mp < 10 then mp + 3 else mp - 9) ≤ 2 then yoe + era * 400 + 1
                  else yoe + era * 400,
                 if mp < 10 then mp + 3 else mp - 9,
                 doy - (153 * mp + 2) / 5 + 1) := by
  have hdoe0 : 0 ≤ t + 719468 - (t + 719468) / 146097 * 146097 := by omega
  have hdoe1 : t + 719468 - (t + 719468) / 146097 * 146097 ≤ 146096 := by omega
  obtain ⟨hy0, hy1, hlo, hhi⟩ := yearOfEra_spec _ hdoe0 hdoe1
  refine ⟨(t + 719468) / 146097,
    yearNumerator (t + 719468 - (t + 719468) / 146097 * 146097) / 365,
    t + 719468 - (t + 719468) / 146097 * 146097
      - daysBeforeYear (yearNumerator (t + 719468 - (t + 719468) / 146097 * 146097) / 365),
    _, hy0, hy1, by omega, ?_, ?_, by omega, rfl, ?_, ?_, ?_⟩
  · generalize yearNumerator (t + 719468 - (t + 719468) / 146097 * 146097) / 365 = yoe at *
    generalize t + 719468 - (t + 719468) / 146097 * 146097 = doe at *
    by_cases h : yoe ≤ 398
    · have := hhi h
      unfold daysBeforeYear at *
      omega
    · have : yoe = 399 := by omega
      subst this
      unfold daysBeforeYear at *
      omega
  · generalize yearNumerator (t + 719468 - (t + 719468) / 146097 * 146097) / 365 = yoe at *
    generalize t + 719468 - (t + 719468) / 146097 * 146097 = doe at *
    intro h365
    by_cases h : yoe ≤ 398
    · have := hhi h
      have a1 : (yoe + 1) / 4 = yoe / 4 ∨ ((yoe + 1) / 4 = yoe / 4 + 1 ∧ (yoe + 1) % 4 = 0) := by
        omega
      have a2 : (yoe + 1) / 100 = yoe / 100
          ∨ ((yoe + 1) / 100 = yoe / 100 + 1 ∧ (yoe + 1) % 100 = 0) := by omega
      unfold daysBeforeYear at *
      omega
    · have : yoe = 399 := by omega
      subst this
      exact ⟨by decide, Or.inr rfl⟩
  · generalize yearNumerator (t + 719468 - (t + 719468) / 146097 * 146097) / 365 = yoe at *
    generalize t + 719468 - (t + 719468) / 146097 * 146097 = doe at *
    omega
  · generalize yearNumerator (t + 719468 - (t + 719468) / 146097 * 146097) / 365 = yoe at *
    generalize t + 719468 - (t + 719468) / 146097 * 146097 = doe at *
    by_cases h : yoe ≤ 398
    · have := hhi h
      unfold daysBeforeYear at *
      omega
    · have : yoe = 399 := by omega
      subst this
      unfold daysBeforeYear at *
      omega
  · rfl


/-- The day number of the calendar date of a day number is that day number. -/
theorem daysFromCivil_civil (t : Int) : daysFromCivil (Year t) (Month t) (Day t) = t := by
  obtain ⟨era, yoe, doy, mp, hy0, hy1, hd0, hd1, _, ht, hmp, hm0, hm1, hc⟩ := civil_parts t
  unfold Year Month Day
  rw [hc]
  unfold daysFromCivil daysBeforeYear at *
  simp only
  by_cases h10 : mp < 10
  · have e1 : ¬ (mp + 3 ≤ 2) := by omega
    have e2 : mp + 3 > 2 := by omega
    simp only [if_pos h10, if_neg e1, if_pos e2]
    have e3 : (yoe + era * 400) / 400 = era := by omega
    have e4 : yoe + era * 400 - era * 400 = yoe := by omega
    have e5 : mp + 3 - 3 = mp := by omega
    rw [e3, e4, e5]
    omega
  · have e1 : mp - 9 ≤ 2 := by omega
    have e2 : ¬ (mp - 9 > 2) := by omega
    simp only [if_neg h10, if_pos e1, if_neg e2]
    have e3 : (yoe + era * 400 + 1 - 1) / 400 = era := by omega
    have e4 : yoe + era * 400 + 1 - 1 - era * 400 = yoe := by omega
    have e5 : mp - 9 + 9 = mp := by omega
    rw [e3, e4, e5]
    omega


/-- Later years start later. -/
theorem daysBeforeYear_mono (a b : Int) (h : a ≤ b) : daysBeforeYear a ≤ daysBeforeYear b := by
  unfold daysBeforeYear
  omega

/-- Length of a March-based year of an era. -/
theorem daysBeforeYear_succ (y : Int) :
    daysBeforeYear (y + 1) = daysBeforeYear y + 365
      + (if (y + 1) % 4 = 0 then 1 else 0) - (if (y + 1) % 100 = 0 then 1 else 0) := by
  unfold daysBeforeYear
  split <;> split <;> omega

/-- A day of era has one year of era and one day of year. -/
theorem parts_unique (yoe doy yoe' doy' : Int)
    (hy1 : yoe ≤ 399) (hd0 : 0 ≤ doy) (hd1 : doy ≤ 365)
    (hl : doy = 365 → (yoe + 1) % 4 = 0 ∧ ((yoe + 1) % 100 ≠ 0 ∨ yoe = 399))
    (hy1' : yoe' ≤ 399) (hd0' : 0 ≤ doy') (hd1' : doy' ≤ 365)
    (hl' : doy' = 365 → (yoe' + 1) % 4 = 0 ∧ ((yoe' + 1) % 100 ≠ 0 ∨ yoe' = 399))
    (h : daysBeforeYear yoe + doy = daysBeforeYear yoe' + doy') :
    yoe = yoe' ∧ doy = doy' := by
  have key : ∀ (a da b db : Int), b ≤ 399 → 0 ≤ db → da ≤ 365 →
      (da = 365 → (a + 1) % 4 = 0 ∧ ((a + 1) % 100 ≠ 0 ∨ a = 399)) →
      daysBeforeYear a + da = daysBeforeYear b + db → ¬ a < b := by
    intro a da b db hb hdb hda hla hab hlt
    have hm := daysBeforeYear_mono (a + 1) b (by omega)
    have hs := daysBeforeYear_succ a
    by_cases h365 : da = 365
    · obtain ⟨h4, h100⟩ := hla h365
      rcases h100 with h100 | h100
      · rw [if_pos h4, if_neg h100] at hs
        omega
      · omega
    · have : da ≤ 364 := by omega
      by_cases h4 : (a + 1) % 4 = 0
      · rw [if_pos h4] at hs
        split at hs <;> omega
      · have h100 : ¬ (a + 1) % 100 = 0 := by omega
        rw [if_neg h4, if_neg h100] at hs
        omega
  have h1 := key yoe doy yoe' doy' hy1' hd0' hd1 hl h
  have h2 := key yoe' doy' yoe doy hy1 hd0 hd1' hl' h.symm
  have : yoe = yoe' := by omega
  subst this
  exact ⟨rfl, by omega⟩

/-- The calendar date of the day number made of an era, a year of era and a
day of year. -/
theorem civil_of_parts (era yoe doy : Int) (hy0 : 0 ≤ yoe) (hy1 : yoe ≤ 399)
    (hd0 : 0 ≤ doy) (hd1 : doy ≤ 365)
    (hl : doy = 365 → (yoe + 1) % 4 = 0 ∧ ((yoe + 1) % 100 ≠ 0 ∨ yoe = 399)) :
    civil (era * 146097 + daysBeforeYear yoe + doy - 719468)
      = (if (if (5 * doy + 2) / 153 < 10 then (5 * doy + 2) / 153 + 3
              else (5 * doy + 2) / 153 - 9) ≤ 2
          then yoe + era * 400 + 1 else yoe + era * 400,
         if (5 * doy + 2) / 153 < 10 then (5 * doy + 2) / 153 + 3
          else (5 * doy + 2) / 153 - 9,
         doy - (153 * ((5 * doy + 2) / 153) + 2) / 5 + 1) := by
  obtain ⟨era', yoe', doy', mp', hy0', hy1', hd0', hd1', hl', ht, hmp, _, _, hc⟩ :=
    civil_parts (era * 146097 + daysBeforeYear yoe + doy - 719468)
  have hb : daysBeforeYear yoe + doy ≤ 146096 := by
    have hm := daysBeforeYear_mono yoe 399 hy1
    have h399 : daysBeforeYear 399 = 145731 := by decide
    by_cases h365 : doy = 365
    · obtain ⟨h4, h100⟩ := hl h365
      rcases h100 with h100 | h100
      · have hs := daysBeforeYear_succ yoe
        rw [if_pos h4, if_neg h100] at hs
        have hm' := daysBeforeYear_mono (yoe + 1) 399 (by omega)
        omega
      · omega
    · omega
  have hb0 : 0 ≤ daysBeforeYear yoe + doy := by
    have := daysBeforeYear_mono 0 yoe hy0
    have h0 : daysBeforeYear 0 = 0 := by decide
    omega
  have hb' : daysBeforeYear yoe' + doy' ≤ 146096 := by
    have hm := daysBeforeYear_mono yoe' 399 hy1'
    have h399 : daysBeforeYear 399 = 145731 := by decide
    by_cases h365 : doy' = 365
    · obtain ⟨h4, h100⟩ := hl' h365
      rcases h100 with h100 | h100
      · have hs := daysBeforeYear_succ yoe'
        rw [if_pos h4, if_neg h100] at hs
        have hm' := daysBeforeYear_mono (yoe' + 1) 399 (by omega)
        omega
      · omega
    · omega
  have hb0' : 0 ≤ daysBeforeYear yoe' + doy' := by
    have := daysBeforeYear_mono 0 yoe' hy0'
    have h0 : daysBeforeYear 0 = 0 := by decide
    omega
  have hera : era' = era := by omega
  subst hera
  obtain ⟨rfl, rfl⟩ := parts_unique yoe doy yoe' doy' hy1 hd0 hd1 hl hy1' hd0' hd1' hl'
    (by omega)
  rw [hc, hmp]


/-- Moving forward inside the first 28 days of a month changes the day of
month only. -/
theorem civil_add_days (t j : Int) (hj : 0 ≤ j) (h28 : Day t + j ≤ 28) :
    civil (t + j) = (Year t, Month t, Day t + j) := by
  obtain ⟨era, yoe, doy, mp, hy0, hy1, hd0, hd1, hl, ht, hmp, hm0, hm1, hc⟩ := civil_parts t
  unfold Year Month Day at *
  rw [hc] at h28 ⊢
  simp only at h28 ⊢
  have hstart : (153 * mp + 2) / 5 ≤ 337 := by omega
  have hdj : doy + j ≤ 364 := by omega
  have hmp' : (5 * (doy + j) + 2) / 153 = mp := by omega
  have := civil_of_parts era yoe (doy + j) hy0 hy1 (by omega) (by omega) (by omega)
  rw [hmp'] at this
  rw [show t + j = era * 146097 + daysBeforeYear yoe + (doy + j) - 719468 by omega, this]
  refine Prod.ext rfl (Prod.ext rfl ?_)
  simp only
  omega

/-- Two dates of the same month differ by the difference of their days of
month. -/
theorem sub_eq_day_sub (t t' : Int) (hy : Year t = Year t') (hm : Month t = Month t') :
    t' - t = Day t' - Day t := by
  have h1 := daysFromCivil_civil t
  have h2 := daysFromCivil_civil t'
  rw [← hy, ← hm] at h2
  unfold daysFromCivil at h1 h2
  simp only at h1 h2
  omega

/-- The leap-year rule. -/
theorem isLeap_iff (y : Int) :
    isLeap y = true ↔ y % 4 = 0 ∧ (y % 100 ≠ 0 ∨ y % 400 = 0) := by
  simp [isLeap]

/-- The calendar date of the day number of a valid date is that date. -/
theorem civil_daysFromCivil (y m d : Int) (hm1 : 1 ≤ m) (hm12 : m ≤ 12)
    (hd1 : 1 ≤ d) (hd : d ≤ daysIn m y) :
    civil (daysFromCivil y m d) = (y, m, d) := by
  have hmc : m = 1 ∨ m = 2 ∨ m = 3 ∨ m = 4 ∨ m = 5 ∨ m = 6 ∨ m = 7 ∨ m = 8 ∨ m = 9
      ∨ m = 10 ∨ m = 11 ∨ m = 12 := by omega
  have hleap := isLeap_iff y
  have key : ∀ (y' mp start : Int), 0 ≤ mp → mp ≤ 11 → start = (153 * mp + 2) / 5 →
      (mp ≤ 10 → d ≤ 31) → (mp = 11 → d ≤ 29) →
      (mp = 1 ∨ mp = 3 ∨ mp = 6 ∨ mp = 8 → d ≤ 30) →
      (mp = 11 → d = 29 → (y' + 1) % 4 = 0 ∧ ((y' + 1) % 100 ≠ 0 ∨ (y' + 1) % 400 = 0)) →
      civil (y' / 400 * 146097 + ((y' - y' / 400 * 400) * 365 + (y' - y' / 400 * 400) / 4
          - (y' - y' / 400 * 400) / 100 + (start + d - 1)) - 719468)
        = (if (if mp < 10 then mp + 3 else mp - 9) ≤ 2 then y' + 1 else y',
           if mp < 10 then mp + 3 else mp - 9, d) := by
    intro y' mp start hmp0 hmp11 hstart h31 h29 h30 hl
    have hyoe0 : 0 ≤ y' - y' / 400 * 400 := by omega
    have hyoe1 : y' - y' / 400 * 400 ≤ 399 := by omega
    have hdoy : (5 * (start + d - 1) + 2) / 153 = mp := by
      have : mp = 0 ∨ mp = 1 ∨ mp = 2 ∨ mp = 3 ∨ mp = 4 ∨ mp = 5 ∨ mp = 6 ∨ mp = 7 ∨ mp = 8
          ∨ mp = 9 ∨ mp = 10 ∨ mp = 11 := by omega
      rcases this with h | h | h | h | h | h | h | h | h | h | h | h <;> subst h <;> omega
    have h365 : start + d - 1 ≤ 365 := by omega
    have := civil_of_parts (y' / 400) (y' - y' / 400 * 400) (start + d - 1) hyoe0 hyoe1
      (by omega) h365 (by
        intro hh
        have hmp : mp = 11 := by omega
        have hd29 : d = 29 := by omega
        obtain ⟨h4, h100⟩ := hl hmp hd29
        refine ⟨by omega, ?_⟩
        rcases h100 with h100 | h100
        · left; omega
        · right; omega)
    rw [hdoy] at this
    rw [show y' / 400 * 146097 + ((y' - y' / 400 * 400) * 365 + (y' - y' / 400 * 400) / 4
          - (y' - y' / 400 * 400) / 100 + (start + d - 1)) - 719468
        = y' / 400 * 146097 + daysBeforeYear (y' - y' / 400 * 400) + (start + d - 1)
        - 719468 by unfold daysBeforeYear; omega, this]
    refine Prod.ext ?_ (Prod.ext rfl ?_)
    · simp only
      split <;> omega
    · simp only
      omega
  unfold daysFromCivil
  simp only
  unfold daysIn at hd
  rcases hmc with h | h | h | h | h | h | h | h | h | h | h | h <;> subst h
  · simpa using key (y - 1) 10 306 (by omega) (by omega) (by omega) (by simp at hd; omega)
      (by omega) (by omega) (by omega)
  · have hd29 : d ≤ 29 := by
      simp only [if_true] at hd
      split at hd <;> omega
    have hl29 : d = 29 → y % 4 = 0 ∧ (y % 100 ≠ 0 ∨ y % 400 = 0) := by
      intro h29
      simp only [if_true] at hd
      split at hd
      · rename_i hlp; exact hleap.1 hlp
      · omega
    simpa using key (y - 1) 11 337 (by omega) (by omega) (by omega) (by omega)
      (fun _ => hd29) (by omega) (fun _ h29 => by
        rw [show y - 1 + 1 = y by omega]; exact hl29 h29)
  · simpa using key y 0 0 (by omega) (by omega) (by omega) (by simp at hd; omega)
      (by omega) (by omega) (by omega)
  · simpa using key y 1 31 (by omega) (by omega) (by omega) (by simp at hd; omega)
      (by omega) (by simp at hd; omega) (by omega)
  · simpa using key y 2 61 (by omega) (by omega) (by omega) (by simp at hd; omega)
      (by omega) (by omega) (by omega)
  · simpa using key y 3 92 (by omega) (by omega) (by omega) (by simp at hd; omega)
      (by omega) (by simp at hd; omega) (by omega)
  · simpa using key y 4 122 (by omega) (by omega) (by omega) (by simp at hd; omega)
      (by omega) (by omega) (by omega)
  · simpa using key y 5 153 (by omega) (by omega) (by omega) (by simp at hd; omega)
      (by omega) (by omega) (by omega)
  · simpa using key y 6 184 (by omega) (by omega) (by omega) (by simp at hd; omega)
      (by omega) (by simp at hd; omega) (by omega)
  · simpa using key y 7 214 (by omega) (by omega) (by omega) (by simp at hd; omega)
      (by omega) (by omega) (by omega)
  · simpa using key y 8 245 (by omega) (by omega) (by omega) (by simp at hd; omega)
      (by omega) (by simp at hd; omega) (by omega)
  · simpa using key y 9 275 (by omega) (by omega) (by omega) (by simp at hd; omega)
      (by omega) (by omega) (by omega)


/-! ## Decimal numbers -/

/-- The code of a digit character. -/
theorem digitChar_toNat (n : Nat) : (digitChar n).toNat = 48 + n % 10 := by
  have h : ∀ k : Nat, k < 10 → (digitChar k).toNat = 48 + k := by decide
  have := h (n % 10) (Nat.mod_lt _ (by decide))
  unfold digitChar at this ⊢
  rw [Nat.mod_mod] at this
  exact this

/-- With enough iterations the digit loop writes the decimal digits in front
of the accumulator. -/
theorem decimalAux_eq (fuel : Nat) :
    ∀ (u : Nat) (acc : List Char), u ≤ fuel → decimalAux fuel u acc = decimal u ++ acc := by
  induction fuel using Nat.strong_induction_on with
  | _ fuel ih =>
    intro u acc hu
    have small : ∀ (f : Nat) (a : List Char), u < 10 → decimalAux f u a = digitChar u :: a := by
      intro f a h10
      cases f with
      | zero => rfl
      | succ f => simp only [decimalAux, if_pos h10]
    by_cases h10 : u < 10
    · rw [small fuel acc h10]
      unfold decimal
      rw [small u [] h10]
      rfl
    · cases fuel with
      | zero => omega
      | succ f =>
        have hstep : decimalAux (f + 1) u acc
            = decimalAux f (u / 10) (digitChar (u % 10) :: acc) := by
          simp only [decimalAux, if_neg h10]
        rw [hstep, ih f (by omega) (u / 10) _ (by omega)]
        unfold decimal
        cases u with
        | zero => omega
        | succ k =>
          have hstep' : decimalAux (k + 1) (k + 1) []
              = decimalAux k ((k + 1) / 10) [digitChar ((k + 1) % 10)] := by
            simp only [decimalAux, if_neg h10]
          rw [hstep', ih k (by omega) ((k + 1) / 10) _ (by omega)]
          unfold decimal
          simp

/-- A number below 10 has one digit. -/
theorem decimal_small (u : Nat) (h : u < 10) : decimal u = [digitChar u] := by
  unfold decimal
  cases u with
  | zero => rfl
  | succ k => simp only [decimalAux, if_pos h]

/-- The digits of a number from 10 on: those of its tenth, then its last digit. -/
theorem decimal_step (u : Nat) (h : 10 ≤ u) :
    decimal u = decimal (u / 10) ++ [digitChar (u % 10)] := by
  cases u with
  | zero => omega
  | succ k =>
    have h10 : ¬ k + 1 < 10 := by omega
    have : decimal (k + 1) = decimalAux k ((k + 1) / 10) [digitChar ((k + 1) % 10)] := by
      unfold decimal
      simp only [decimalAux, if_neg h10]
    rw [this, decimalAux_eq k _ _ (by omega)]

/-- Value of a run of digits with one more digit. -/
theorem digitsValue_append_single (l : List Char) (c : Char) :
    digitsValue (l ++ [c]) = 10 * digitsValue l + (c.toNat - 48) := by
  unfold digitsValue
  rw [List.foldl_append]
  rfl

/-- The decimal digits of a number have that number as value. -/
theorem digitsValue_decimal (u : Nat) : digitsValue (decimal u) = u := by
  induction u using Nat.strong_induction_on with
  | _ u ih =>
    by_cases h : u < 10
    · rw [decimal_small u h]
      unfold digitsValue
      simp only [List.foldl_cons, List.foldl_nil, digitChar_toNat]
      omega
    · rw [decimal_step u (by omega), digitsValue_append_single, ih (u / 10) (by omega),
        digitChar_toNat]
      omega

/-- Leading zeros do not change the value. -/
theorem digitsValue_zeros (k : Nat) (l : List Char) :
    digitsValue (List.replicate k '0' ++ l) = digitsValue l := by
  induction k with
  | zero => rfl
  | succ k ih =>
    have : digitsValue (List.replicate (k + 1) '0' ++ l)
        = digitsValue (List.replicate k '0' ++ l) := by
      unfold digitsValue
      simp only [List.replicate_succ, List.cons_append, List.foldl_cons]
      rfl
    rw [this, ih]

/-- Every number has a digit. -/
theorem decimal_ne_nil (u : Nat) : decimal u ≠ [] := by
  by_cases h : u < 10
  · rw [decimal_small u h]; simp
  · rw [decimal_step u (by omega)]; simp

/-- The decimal representation holds digits only. -/
theorem decimal_digits (u : Nat) : ∀ c ∈ decimal u, isDigit c = true := by
  induction u using Nat.strong_induction_on with
  | _ u ih =>
    have hd : ∀ n, isDigit (digitChar n) = true := by
      intro n
      unfold isDigit
      rw [digitChar_toNat]
      simp only [decide_eq_true_eq]
      omega
    by_cases h : u < 10
    · rw [decimal_small u h]
      intro c hc
      simp only [List.mem_singleton] at hc
      rw [hc]; exact hd u
    · rw [decimal_step u (by omega)]
      intro c hc
      rcases List.mem_append.1 hc with hc | hc
      · exact ih (u / 10) (by omega) c hc
      · simp only [List.mem_singleton] at hc
        rw [hc]; exact hd _

/-- Reading back what `appendInt` wrote gives the number. -/
theorem parseSigned_appendInt (x : Int) (w : Nat) : parseSigned (appendInt x w) = x := by
  unfold appendInt
  simp only
  by_cases hx : x < 0
  · simp only [if_pos hx, List.cons_append, List.nil_append, parseSigned, if_true]
    rw [digitsValue_zeros, digitsValue_decimal]
    omega
  · simp only [if_neg hx, List.nil_append]
    have hne : List.replicate (w - (decimal x.natAbs).length) '0' ++ decimal x.natAbs ≠ [] := by
      simp [decimal_ne_nil]
    cases hl : List.replicate (w - (decimal x.natAbs).length) '0' ++ decimal x.natAbs with
    | nil => exact absurd hl hne
    | cons c rest =>
      have hc : isDigit c = true := by
        have hmem : c ∈ List.replicate (w - (decimal x.natAbs).length) '0'
            ++ decimal x.natAbs := by rw [hl]; exact List.mem_cons_self _ _
        rcases List.mem_append.1 hmem with h | h
        · rw [(List.mem_replicate.1 h).2]; decide
        · exact decimal_digits _ c h
      have hcm : ¬ c = '-' := by
        intro h; rw [h] at hc; exact absurd hc (by decide)
      simp only [parseSigned, if_neg hcm]
      rw [← hl, digitsValue_zeros, digitsValue_decimal]
      omega

/-- Two numbers written alike are equal. -/
theorem appendInt_injective (x y : Int) (w : Nat) (h : appendInt x w = appendInt y w) :
    x = y := by
  rw [← parseSigned_appendInt x w, ← parseSigned_appendInt y w, h]


/-! ## Formatted dates -/

/-- The day of month of a date is in 1..31. -/
theorem Day_range (t : Int) : 1 ≤ Day t ∧ Day t ≤ 31 := by
  unfold Day civil
  simp only
  omega

/-- A number from 0 to 99 is written with two digits. -/
theorem appendInt_two (x : Int) (h0 : 0 ≤ x) (h99 : x ≤ 99) :
    appendInt x 2 = [digitChar (x.natAbs / 10), digitChar x.natAbs] := by
  unfold appendInt
  simp only [if_neg (by omega : ¬ x < 0), List.nil_append]
  by_cases h : x.natAbs < 10
  · rw [decimal_small _ h]
    have : x.natAbs / 10 = 0 := by omega
    rw [this]
    rfl
  · rw [decimal_step _ (by omega), decimal_small (x.natAbs / 10) (by omega)]
    have : digitChar (x.natAbs % 10) = digitChar x.natAbs := by
      unfold digitChar; rw [Nat.mod_mod]
    rw [this]
    rfl

/-- A number from 0 to 9999 is written with four digits. -/
theorem appendInt_four (x : Int) (h0 : 0 ≤ x) (h1 : x ≤ 9999) :
    appendInt x 4 = [digitChar (x.natAbs / 1000), digitChar (x.natAbs / 100),
      digitChar (x.natAbs / 10), digitChar x.natAbs] := by
  unfold appendInt
  simp only [if_neg (by omega : ¬ x < 0), List.nil_append]
  have hmod : ∀ n, digitChar (n % 10) = digitChar n := by
    intro n; unfold digitChar; rw [Nat.mod_mod]
  have hu : x.natAbs ≤ 9999 := by omega
  generalize x.natAbs = u at *
  by_cases h10 : u < 10
  · rw [decimal_small _ h10]
    have e1 : u / 1000 = 0 := by omega
    have e2 : u / 100 = 0 := by omega
    have e3 : u / 10 = 0 := by omega
    rw [e1, e2, e3]; rfl
  · rw [decimal_step u (by omega)]
    by_cases h100 : u < 100
    · rw [decimal_small (u / 10) (by omega)]
      have e1 : u / 1000 = 0 := by omega
      have e2 : u / 100 = 0 := by omega
      rw [e1, e2, hmod]; rfl
    · rw [decimal_step (u / 10) (by omega)]
      by_cases h1000 : u < 1000
      · rw [decimal_small (u / 10 / 10) (by omega)]
        have e1 : u / 1000 = 0 := by omega
        have e2 : u / 10 / 10 = u / 100 := by omega
        rw [e1, e2, hmod, hmod]; rfl
      · rw [decimal_step (u / 10 / 10) (by omega), decimal_small (u / 10 / 10 / 10) (by omega)]
        have e1 : u / 10 / 10 / 10 = u / 1000 := by omega
        have e2 : u / 10 / 10 = u / 100 := by omega
        rw [e1, e2, hmod, hmod, hmod]; rfl

/-- The layout `2006-01` determines the year and the month. -/
theorem formatYearMonth_injective (t t' : Int) (h : formatYearMonth t = formatYearMonth t') :
    Year t = Year t' ∧ Month t = Month t' := by
  unfold formatYearMonth at h
  have hl := congrArg String.data h
  simp only at hl
  have hm := Month_range t
  have hm' := Month_range t'
  have l2 : (appendInt (Month t) 2).length = 2 := by
    rw [appendInt_two _ (by omega) (by omega)]; rfl
  have l2' : (appendInt (Month t') 2).length = 2 := by
    rw [appendInt_two _ (by omega) (by omega)]; rfl
  obtain ⟨hy, hmm⟩ := List.append_inj' hl (by simp [l2, l2'])
  exact ⟨appendInt_injective _ _ 4 hy, appendInt_injective _ _ 2 (List.cons.inj hmm).2⟩

/-- The layout `2006-01-02` determines the date. -/
theorem formatDate_injective (t t' : Int) (h : formatDate t = formatDate t') : t = t' := by
  unfold formatDate at h
  have hl := congrArg String.data h
  simp only at hl
  have hm := Month_range t
  have hm' := Month_range t'
  have hd := Day_range t
  have hd' := Day_range t'
  have l2 : (appendInt (Month t) 2).length = 2 := by
    rw [appendInt_two _ (by omega) (by omega)]; rfl
  have l2' : (appendInt (Month t') 2).length = 2 := by
    rw [appendInt_two _ (by omega) (by omega)]; rfl
  have d2 : (appendInt (Day t) 2).length = 2 := by
    rw [appendInt_two _ (by omega) (by omega)]; rfl
  have d2' : (appendInt (Day t') 2).length = 2 := by
    rw [appendInt_two _ (by omega) (by omega)]; rfl
  obtain ⟨hym, hrest⟩ := List.append_inj' hl (by simp [d2, d2'])
  obtain ⟨hy, hmm⟩ := List.append_inj' hym (by simp [l2, l2'])
  have ey := appendInt_injective _ _ 4 hy
  have em := appendInt_injective _ _ 2 (List.cons.inj hmm).2
  have ed := appendInt_injective _ _ 2 (List.cons.inj hrest).2
  rw [← daysFromCivil_civil t, ← daysFromCivil_civil t', ey, em, ed]

/-! ## Month labels and first week starts -/

/-- Week starts are 7 days apart. -/
theorem weekStart_sub (monday : Int) (w w' : Nat) :
    weekStart monday w' - weekStart monday w = 7 * ((w' : Int) - (w : Int)) := by
  unfold weekStart addDays
  omega

/-- Two week starts in the first seven days of the same month are the same
week. -/
theorem first_monday_unique (monday : Int) (w w' : Nat)
    (h : Day (weekStart monday w) ≤ 7) (h' : Day (weekStart monday w') ≤ 7)
    (hy : Year (weekStart monday w) = Year (weekStart monday w'))
    (hm : Month (weekStart monday w) = Month (weekStart monday w')) : w = w' := by
  have hs := sub_eq_day_sub _ _ hy hm
  rw [weekStart_sub] at hs
  have r := Day_range (weekStart monday w)
  have r' := Day_range (weekStart monday w')
  omega

/-- A week that starts in the first seven days of a month is followed by
three weeks that do not. -/
theorem first_monday_apart (monday : Int) (w k : Nat)
    (h : Day (weekStart monday w) ≤ 7) (hk1 : 1 ≤ k) (hk3 : k ≤ 3) :
    7 < Day (weekStart monday (w + k)) := by
  have hadd := civil_add_days (weekStart monday w) (7 * (k : Int)) (by omega) (by omega)
  have hws : weekStart monday (w + k) = weekStart monday w + 7 * (k : Int) := by
    unfold weekStart addDays
    push_cast
    omega
  have r := Day_range (weekStart monday w)
  unfold Day at *
  rw [hws, hadd]
  simp only
  omega

/-- One iteration of the month-label loop keeps the invariant: a week that
starts in the first seven days of a month never finds its key printed. -/
theorem firstMondayInv_step (monday : Int) (W n : Nat)
    (st : List String × List (String × Bool)) (hn : n < W)
    (h : FirstMondayInv monday W n st) :
    FirstMondayInv monday W (n + 1) (monthLabelsStep monday st n) := by
  obtain ⟨hlen, hiff, hrest, hprinted⟩ := h
  have hday : ¬ (mapGet st.2 (formatYearMonth (weekStart monday n))).getD false = false →
      7 < Day (weekStart monday n) := by
    intro hp
    have hp' : (mapGet st.2 (formatYearMonth (weekStart monday n))).getD false = true := by
      cases hb : (mapGet st.2 (formatYearMonth (weekStart monday n))).getD false
      · exact absurd hb hp
      · rfl
    obtain ⟨w, hw, hd, hk⟩ := hprinted _ hp'
    obtain ⟨hy, hm⟩ := formatYearMonth_injective _ _ hk
    have hs := sub_eq_day_sub _ _ hy hm
    rw [weekStart_sub] at hs
    have r := Day_range (weekStart monday w)
    omega
  unfold monthLabelsStep
  simp only
  split
  · rename_i hc
    obtain ⟨hd, hnew⟩ := hc
    refine ⟨by simp [hlen], fun w hw => ?_, fun w hw => ?_, fun k hk => ?_⟩
    · rw [getD_set]
      by_cases hwn : n = w
      · subst hwn
        rw [if_pos ⟨rfl, by omega⟩]
        have hr := Month_range (weekStart monday n)
        have h3 := shortMonthName_length _ hr.1 hr.2
        constructor
        · intro _; exact hd
        · intro _ he
          unfold formatMonthAbbr at he
          rw [he] at h3
          exact absurd h3 (by decide)
      · rw [if_neg (fun hh => hwn hh.1)]
        exact hiff w (by omega)
    · rw [getD_set, if_neg (fun hh => by omega)]
      exact hrest w (by omega)
    · rw [mapGet_mapSet] at hk
      by_cases hkk : formatYearMonth (weekStart monday n) = k
      · exact ⟨n, by omega, hd, hkk⟩
      · rw [if_neg hkk] at hk
        obtain ⟨w, hw, hd', hk'⟩ := hprinted k hk
        exact ⟨w, by omega, hd', hk'⟩
  · rename_i hc
    refine ⟨hlen, fun w hw => ?_, fun w hw => hrest w (by omega), fun k hk => ?_⟩
    · by_cases hwn : w = n
      · subst hwn
        have hgt : 7 < Day (weekStart monday w) := by
          by_cases hd : Day (weekStart monday w) ≤ 7
          · exact hday (fun hp => hc ⟨hd, hp⟩)
          · omega
        rw [hrest w (le_refl _)]
        constructor
        · intro hne; exact absurd rfl hne
        · intro hle; omega
      · exact hiff w (by omega)
    · obtain ⟨w, hw, hd', hk'⟩ := hprinted k hk
      exact ⟨w, by omega, hd', hk'⟩

/-- The invariant holds after every number of iterations. -/
theorem firstMondayInv_loop (monday : Int) (W n : Nat) (hn : n ≤ W) :
    FirstMondayInv monday W n (monthLabelsLoop monday W n) := by
  induction n with
  | zero =>
    refine ⟨by simp [monthLabelsLoop], fun w hw => absurd hw (by omega), fun w _ => ?_,
      fun k hk => ?_⟩
    · simp only [monthLabelsLoop, List.range_zero, List.foldl_nil, List.getD_eq_getElem?_getD,
        List.getElem?_replicate]
      split <;> rfl
    · simp [monthLabelsLoop, mapGet] at hk
  | succ n ih =>
    have : monthLabelsLoop monday W (n + 1)
        = monthLabelsStep monday (monthLabelsLoop monday W n) n := by
      simp [monthLabelsLoop, List.range_succ, List.foldl_append]
    rw [this]
    exact firstMondayInv_step monday W n _ (by omega) (ih (by omega))

/-- A column is labelled exactly when it is a column of the grid whose week
starts in the first seven days of a month. -/
theorem labelled_iff (monday : Int) (W w : Nat) :
    (monthLabels monday W).getD w "" ≠ "" ↔ w < W ∧ Day (weekStart monday w) ≤ 7 := by
  obtain ⟨hlen, hiff, hrest, _⟩ := firstMondayInv_loop monday W W (le_refl _)
  by_cases hw : w < W
  · have := hiff w hw
    unfold monthLabels
    rw [this]
    exact ⟨fun h => ⟨hw, h⟩, fun h => h.2⟩
  · have := hrest w (by omega)
    unfold monthLabels
    rw [this]
    exact ⟨fun h => absurd rfl h, fun h => absurd h.1 hw⟩

/-- C19: the de-duplication guard never suppresses a label: a column of the
grid is labelled exactly when the day of month of `monday + 7*w` is at most 7;
a month whose first week start lies in the grid gets a label at that column
and at no other; and two labelled columns are at least 4 columns apart. -/
theorem monthLabels_first_mondays (monday : Int) (weekCount : Nat) :
    (∀ w : Nat, w < weekCount →
      ((monthLabels monday weekCount).getD w "" ≠ "" ↔ Day (weekStart monday w) ≤ 7)) ∧
    (∀ w : Nat, w < weekCount → Day (weekStart monday w) ≤ 7 →
      (monthLabels monday weekCount).getD w "" ≠ "" ∧
      ∀ w' : Nat, (monthLabels monday weekCount).getD w' "" ≠ "" →
        Year (weekStart monday w') = Year (weekStart monday w) →
        Month (weekStart monday w') = Month (weekStart monday w) → w' = w) ∧
    (∀ w₁ w₂ : Nat,
      (monthLabels monday weekCount).getD w₁ "" ≠ "" →
      (monthLabels monday weekCount).getD w₂ "" ≠ "" →
      w₁ < w₂ → w₁ + 4 ≤ w₂) := by
  refine ⟨fun w hw => ?_, fun w hw hd => ⟨?_, fun w' hl hy hm => ?_⟩, fun w₁ w₂ h1 h2 hlt => ?_⟩
  · rw [labelled_iff]
    exact ⟨fun h => h.2, fun h => ⟨hw, h⟩⟩
  · exact (labelled_iff monday weekCount w).2 ⟨hw, hd⟩
  · have hd' := ((labelled_iff monday weekCount w').1 hl).2
    exact first_monday_unique monday w' w hd' hd hy hm
  · have hd1 := ((labelled_iff monday weekCount w₁).1 h1).2
    have hd2 := ((labelled_iff monday weekCount w₂).1 h2).2
    by_contra hne
    have := first_monday_apart monday w₁ (w₂ - w₁) hd1 (by omega) (by omega)
    rw [show w₁ + (w₂ - w₁) = w₂ by omega] at this
    omega


/-! ## The month header and the weekday rows -/

/-- Skipping a control sequence does not lengthen the text. -/
theorem dropSGR_length (l : List Char) : (dropSGR l).length ≤ l.length := by
  induction l with
  | nil => simp [dropSGR]
  | cons c cs ih =>
    simp only [dropSGR]
    split
    · simp
    · simp only [List.length_cons]; omega

/-- The scan of a text gives the same result for every bound that is at
least its length. -/
theorem visibleAux_fuel (n : Nat) :
    ∀ (m : Nat) (l : List Char), l.length ≤ n → l.length ≤ m →
      visibleAux n l = visibleAux m l := by
  induction n with
  | zero =>
    intro m l hn _
    have : l = [] := List.length_eq_zero.1 (by omega)
    subst this
    cases m <;> rfl
  | succ n ih =>
    intro m l hn hm
    cases l with
    | nil => cases m <;> rfl
    | cons c cs =>
      cases m with
      | zero => simp at hm
      | succ m =>
        simp only [List.length_cons, Nat.add_le_add_iff_right] at hn hm
        simp only [visibleAux]
        have hd := dropSGR_length cs
        split
        · exact ih m _ (by omega) (by omega)
        · rw [ih m cs hn hm]

/-- Nothing is displayed for the empty text. -/
theorem visibleChars_nil : visibleChars [] = [] := rfl

/-- A character other than the escape character is displayed. -/
theorem visibleChars_cons (c : Char) (l : List Char) (h : c ≠ esc) :
    visibleChars (c :: l) = c :: visibleChars l := by
  unfold visibleChars
  simp only [List.length_cons, visibleAux, if_neg h]

/-- A control sequence is not displayed. -/
theorem visibleChars_esc (l : List Char) :
    visibleChars (esc :: l) = visibleChars (dropSGR l) := by
  unfold visibleChars
  simp only [List.length_cons, visibleAux, if_true]
  exact visibleAux_fuel _ _ _ (dropSGR_length l) (le_refl _)

/-- The displayed characters of a string. -/
theorem visible_eq (s : String) : visible s = visibleChars s.data := rfl

/-- The blank cell displays a blank. -/
theorem cellLike_blank : CellLike " " ' ' := by
  intro rest
  exact visibleChars_cons ' ' rest (by decide)

/-- Skipping a control sequence stops after its final letter. -/
theorem dropSGR_append (pre rest : List Char) (h : 'm' ∉ pre) :
    dropSGR (pre ++ 'm' :: rest) = rest := by
  induction pre with
  | nil => simp [dropSGR]
  | cons c cs ih =>
    simp only [List.mem_cons, not_or] at h
    have hc : ¬ c = 'm' := fun hh => h.1 hh.symm
    simp only [List.cons_append, dropSGR, if_neg hc]
    exact ih h.2

/-- A coloured cell displays its digit: the colour sequence and the reset
sequence are not displayed. -/
theorem cellLike_of_shape (pre : List Char) (d : Char) (hpre : 'm' ∉ pre) (hd : d ≠ esc) :
    CellLike (String.mk (esc :: (pre ++ 'm' :: d :: esc :: '[' :: '0' :: 'm' :: []))) d := by
  intro rest
  show visibleChars (esc :: (pre ++ 'm' :: d :: esc :: '[' :: '0' :: 'm' :: []) ++ rest) = _
  rw [List.cons_append, visibleChars_esc, List.append_assoc, List.cons_append,
    dropSGR_append _ _ hpre]
  simp only [List.cons_append, List.nil_append]
  rw [visibleChars_cons d _ hd, visibleChars_esc]
  simp [dropSGR]

/-- A coloured cell of the foreground palette displays the digit of its band. -/
theorem cellLike_colorize (k : Int) (h1 : 1 ≤ k) :
    CellLike (colorize k false) (digitChar (min k 9).natAbs) := by
  by_cases h9 : 9 ≤ k
  · rw [colorize_ge_nine k false h9, min_eq_right h9]
    exact cellLike_of_shape ("[38;5;191").data '9' (by decide) (by decide)
  · have hk : k = 1 ∨ k = 2 ∨ k = 3 ∨ k = 4 ∨ k = 5 ∨ k = 6 ∨ k = 7 ∨ k = 8 := by omega
    rw [min_eq_left (by omega)]
    rcases hk with h | h | h | h | h | h | h | h <;> subst h
    · exact cellLike_of_shape ("[38;5;22").data '1' (by decide) (by decide)
    · exact cellLike_of_shape ("[38;5;28").data '2' (by decide) (by decide)
    · exact cellLike_of_shape ("[38;5;34").data '3' (by decide) (by decide)
    · exact cellLike_of_shape ("[38;5;40").data '4' (by decide) (by decide)
    · exact cellLike_of_shape ("[38;5;46").data '5' (by decide) (by decide)
    · exact cellLike_of_shape ("[38;5;82").data '6' (by decide) (by decide)
    · exact cellLike_of_shape ("[38;5;118").data '7' (by decide) (by decide)
    · exact cellLike_of_shape ("[38;5;154").data '8' (by decide) (by decide)

/-- Every cell written by the fill loop displays exactly one character. -/
theorem cellLike_cellValue (monday today : Int) (counts : List (String × Int)) (w d : Nat) :
    ∃ v, CellLike (cellValue monday today counts w d) v ∧
      visible (cellValue monday today counts w d) = [v] := by
  have single : ∀ s v, CellLike s v → visible s = [v] := by
    intro s v h
    have := h []
    rw [List.append_nil] at this
    rw [visible_eq, this, visibleChars_nil]
  unfold cellValue
  simp only
  split
  · exact ⟨' ', cellLike_blank, single _ _ cellLike_blank⟩
  · split
    · split
      · rename_i count _ hpos
        exact ⟨_, cellLike_colorize count (by omega), single _ _ (cellLike_colorize count (by omega))⟩
      · exact ⟨' ', cellLike_blank, single _ _ cellLike_blank⟩
    · exact ⟨' ', cellLike_blank, single _ _ cellLike_blank⟩


/-- Text without escape characters is displayed as it is. -/
theorem visibleChars_plain (p rest : List Char) (h : esc ∉ p) :
    visibleChars (p ++ rest) = p ++ visibleChars rest := by
  induction p with
  | nil => rfl
  | cons c cs ih =>
    simp only [List.mem_cons, not_or] at h
    have hc : c ≠ esc := fun hh => h.1 hh.symm
    rw [List.cons_append, visibleChars_cons c _ hc, ih h.2]
    rfl

/-- The displayed text of a run of cells, each followed by a blank. -/
theorem visibleChars_cells (f : Nat → String) (v : Nat → Char) (rest : List Char) :
    ∀ ws : List Nat, (∀ w ∈ ws, CellLike (f w) (v w)) →
      visibleChars (ws.flatMap (fun w => (f w).data ++ [' ']) ++ rest)
        = ws.flatMap (fun w => [v w, ' ']) ++ visibleChars rest := by
  intro ws
  induction ws with
  | nil => intro _; rfl
  | cons w ws ih =>
    intro h
    have hw := h w (List.mem_cons_self _ _)
    have ih' := ih (fun x hx => h x (List.mem_cons_of_mem _ hx))
    rw [List.flatMap_cons, List.append_assoc, List.append_assoc, hw]
    rw [List.cons_append, List.nil_append, visibleChars_cons ' ' _ (by decide), ih']
    rfl

/-- In a run of two-character cells the cell number `k` is at index `2 * k`. -/
theorem pairs_getElem (g : Nat → Char) (tail : List Char) :
    ∀ (ws : List Nat) (k : Nat), k < ws.length →
      (ws.flatMap (fun w => [g w, ' ']) ++ tail)[2 * k]? = (ws[k]?).map g := by
  intro ws
  induction ws with
  | nil => intro k hk; simp at hk
  | cons w ws ih =>
    intro k hk
    cases k with
    | zero => simp
    | succ k =>
      simp only [List.length_cons, Nat.add_lt_add_iff_right] at hk
      have := ih k hk
      simp only [List.flatMap_cons, List.cons_append, List.nil_append]
      rw [show 2 * (k + 1) = 2 * k + 1 + 1 by omega]
      simp only [List.getElem?_cons_succ]
      rw [this]

/-- The row caption `%4s ` has five characters, none of them an escape. -/
theorem dayLabel_plain (i : Nat) (hi : i < 7) :
    ∃ p : List Char, p.length = 5 ∧ esc ∉ p ∧
      (padLeft 4 (dayNames.getD i "") ++ " ").data = p := by
  have : i = 0 ∨ i = 1 ∨ i = 2 ∨ i = 3 ∨ i = 4 ∨ i = 5 ∨ i = 6 := by omega
  rcases this with h | h | h | h | h | h | h <;> subst h <;>
    exact ⟨_, by decide, by decide, rfl⟩

/-- In the displayed text of a weekday row the cell of column `w` is the
character number `5 + 2*w`. -/
theorem row_cell_position (monday today : Int) (counts : List (String × Int))
    (totals : List Int) (W i w : Nat) (hi : i < 7) (hw : w < W) :
    (visibleChars (outputChars
        (rowOutput (fillMatrix monday today counts W) totals W i)))[5 + 2 * w]?
      = (visible (cell (fillMatrix monday today counts W) i w)).head? ∧
    (visible (cell (fillMatrix monday today counts W) i w)).length = 1 := by
  have hcell : ∀ x, x < W → cell (fillMatrix monday today counts W) i x
      = cellValue monday today counts x i := fun x hx =>
    (fillMatrix_upto monday today counts W W (le_refl _)).2 i x hi hx
  have hlike : ∀ x ∈ List.range W,
      CellLike (cell (fillMatrix monday today counts W) i x)
        ((visible (cell (fillMatrix monday today counts W) i x)).headD ' ') := by
    intro x hx
    rw [hcell x (List.mem_range.1 hx)]
    obtain ⟨v, hv, hvis⟩ := cellLike_cellValue monday today counts x i
    rw [hvis]
    exact hv
  obtain ⟨p, hp5, hpesc, hp⟩ := dayLabel_plain i hi
  have hrow : outputChars (rowOutput (fillMatrix monday today counts W) totals W i)
      = p ++ ((List.range W).flatMap
          (fun x => (cell (fillMatrix monday today counts W) i x).data ++ [' '])
        ++ outputChars ["   " ++ formatInt2 (totals.getD i 0) ++ " " ++ dayNames.getD i "",
            "\n"]) := by
    unfold rowOutput outputChars
    simp only [List.flatMap_append, List.flatMap_cons, List.flatMap_nil, List.append_nil,
      List.flatMap_map, hp, List.append_assoc, String.data_append]
  rw [hrow, visibleChars_plain _ _ hpesc, visibleChars_cells _ _ _ _ hlike]
  rw [List.getElem?_append_right (by omega)]
  rw [show 5 + 2 * w - p.length = 2 * w by omega]
  rw [pairs_getElem _ _ _ w (by simpa using hw)]
  obtain ⟨v, _, hvis⟩ := cellLike_cellValue monday today counts w i
  rw [hcell w hw, hvis]
  simp [List.getElem?_range hw, hcell w hw, hvis]


/-- The characters of a first print call come first. -/
theorem outputChars_cons (a : String) (l : List String) :
    outputChars (a :: l) = a.data ++ outputChars l := rfl

/-- The header walk from column `w`, for labels of three letters of which no
two are in adjacent columns: it ends, and it writes the label of every
labelled column `c ≥ w` after `2 * (c - w)` characters. -/
theorem headerLoop_text (labels : List String) (W : Nat)
    (hsep : ∀ c, labels.getD c "" ≠ "" → labels.getD (c + 1) "" = "")
    (hlen : ∀ c, labels.getD c "" ≠ "" → (labels.getD c "").data.length = 3) :
    ∀ (fuel w : Nat) (out : List String), W ≤ fuel + w →
      ∃ chunks, headerLoop labels W fuel w out = some (out ++ chunks) ∧
        ∀ c, w ≤ c → c < W → labels.getD c "" ≠ "" →
          padLeft 4 (labels.getD c "") ∈ chunks ∧
          ((outputChars chunks).drop (2 * (c - w))).take 4
            = ' ' :: (labels.getD c "").data := by
  have hpad : ∀ c, labels.getD c "" ≠ "" →
      (padLeft 4 (labels.getD c "")).data = ' ' :: (labels.getD c "").data := by
    intro c hc
    unfold padLeft
    simp only [hlen c hc]
    rfl
  intro fuel
  induction fuel with
  | zero =>
    intro w out h
    refine ⟨[], ?_, fun c hc1 hc2 => absurd hc2 (by omega)⟩
    simp only [headerLoop, if_neg (by omega : ¬ w < W), List.append_nil]
  | succ n ih =>
    intro w out h
    simp only [headerLoop]
    by_cases hw : w < W
    · rw [if_pos hw]
      by_cases hl : labels.getD w "" ≠ ""
      · rw [if_pos hl]
        obtain ⟨chunks, hrun, hprop⟩ := ih (w + 2) (out ++ [padLeft 4 (labels.getD w "")])
          (by omega)
        refine ⟨padLeft 4 (labels.getD w "") :: chunks, ?_, fun c hc1 hc2 hc => ?_⟩
        · rw [hrun]; simp
        · rw [outputChars_cons, hpad w hl]
          by_cases hcw : c = w
          · subst hcw
            refine ⟨List.mem_cons_self _ _, ?_⟩
            rw [Nat.sub_self, Nat.mul_zero, List.drop_zero]
            exact List.take_left' (by rw [List.length_cons, hlen c hl])
          · have hc2' : c ≠ w + 1 := by
              intro hh
              rw [hh] at hc
              exact hc (hsep w hl)
            obtain ⟨hmem, htext⟩ := hprop c (by omega) hc2 hc
            refine ⟨List.mem_cons_of_mem _ hmem, ?_⟩
            rw [← htext]
            have hl4 : (' ' :: (labels.getD w "").data).length = 4 := by
              rw [List.length_cons, hlen w hl]
            have hdrop := @List.drop_append _ (' ' :: (labels.getD w "").data)
              (outputChars chunks) (2 * (c - (w + 2)))
            rw [hl4] at hdrop
            rw [show 2 * (c - w) = 4 + 2 * (c - (w + 2)) by omega, hdrop]
      · rw [if_neg hl]
        obtain ⟨chunks, hrun, hprop⟩ := ih (w + 1) (out ++ ["  "]) (by omega)
        refine ⟨"  " :: chunks, ?_, fun c hc1 hc2 hc => ?_⟩
        · rw [hrun]; simp
        · have hcw : c ≠ w := fun hh => hl (hh ▸ hc)
          obtain ⟨hmem, htext⟩ := hprop c (by omega) hc2 hc
          refine ⟨List.mem_cons_of_mem _ hmem, ?_⟩
          rw [← htext, outputChars_cons]
          have hdrop := @List.drop_append _ ("  ").data
            (outputChars chunks) (2 * (c - (w + 1)))
          rw [show ("  ").data.length = 2 by rfl] at hdrop
          rw [show 2 * (c - w) = 2 + 2 * (c - (w + 1)) by omega, hdrop]
    · rw [if_neg hw]
      exact ⟨[], by simp, fun c hc1 hc2 => absurd hc2 (by omega)⟩


/-- No two adjacent columns are labelled. -/
theorem labels_not_adjacent (monday : Int) (W c : Nat)
    (h : (monthLabels monday W).getD c "" ≠ "") :
    (monthLabels monday W).getD (c + 1) "" = "" := by
  by_contra hne
  have h1 := ((labelled_iff monday W c).1 h).2
  have h2 := ((labelled_iff monday W (c + 1)).1 hne).2
  have := first_monday_apart monday c 1 h1 (le_refl _) (by omega)
  omega

/-- Every label has three letters. -/
theorem label_length (monday : Int) (W c : Nat)
    (h : (monthLabels monday W).getD c "" ≠ "") :
    ((monthLabels monday W).getD c "").data.length = 3 := by
  obtain ⟨_, hlab, _⟩ := labelInv_loop monday W W
  have h3 := (hlab c h).2.2.1
  have hr := Month_range (weekStart monday c)
  have := shortMonthName_length _ hr.1 hr.2
  show ((monthLabelsLoop monday W W).1.getD c "").data.length = 3
  rw [h3]
  exact this

/-- C17: the month header walk. A labelled column emits its label
right-justified in 4 characters and advances 2 columns, an unlabelled column
emits 2 blanks and advances 1. For every Monday and week count the walk ends;
every label of `monthLabels` is emitted, the label of column `w` starting
after exactly `2*w` characters behind the 4-blank indent, so that its first
letter is the character number `5 + 2*w` of the header line (counting from 0);
and in the displayed text of every weekday row the cell of column `w` is the
character number `5 + 2*w` as well. -/
theorem header_walk (monday today : Int) (counts : List (String × Int))
    (totals : List Int) (weekCount : Nat) (out : List String) :
    (∀ (fuel w : Nat) (o : List String), w < weekCount →
      (monthLabels monday weekCount).getD w "" ≠ "" →
      headerLoop (monthLabels monday weekCount) weekCount (fuel + 1) w o
        = headerLoop (monthLabels monday weekCount) weekCount fuel (w + 2)
            (o ++ [padLeft 4 ((monthLabels monday weekCount).getD w "")])) ∧
    (∀ (fuel w : Nat) (o : List String), w < weekCount →
      (monthLabels monday weekCount).getD w "" = "" →
      headerLoop (monthLabels monday weekCount) weekCount (fuel + 1) w o
        = headerLoop (monthLabels monday weekCount) weekCount fuel (w + 1) (o ++ ["  "])) ∧
    (∃ chunks : List String,
      headerLoop (monthLabels monday weekCount) weekCount weekCount 0 (out ++ ["    "])
        = some (out ++ ["    "] ++ chunks) ∧
      ∀ w : Nat, (monthLabels monday weekCount).getD w "" ≠ "" →
        padLeft 4 ((monthLabels monday weekCount).getD w "") ∈ chunks ∧
        ((outputChars chunks).drop (2 * w)).take 4
          = ' ' :: ((monthLabels monday weekCount).getD w "").data ∧
        (outputChars ("    " :: chunks))[5 + 2 * w]?
          = ((monthLabels monday weekCount).getD w "").data.head?) ∧
    (∀ i w : Nat, i < 7 → w < weekCount →
      (visibleChars (outputChars
          (rowOutput (fillMatrix monday today counts weekCount) totals weekCount i)))[5 + 2 * w]?
        = (visible (cell (fillMatrix monday today counts weekCount) i w)).head? ∧
      (visible (cell (fillMatrix monday today counts weekCount) i w)).length = 1) := by
  refine ⟨fun fuel w o hw hl => ?_, fun fuel w o hw hl => ?_, ?_,
    fun i w hi hw => row_cell_position monday today counts totals weekCount i w hi hw⟩
  · simp only [headerLoop, if_pos hw, if_pos hl]
  · have : ¬ (monthLabels monday weekCount).getD w "" ≠ "" := fun h => h hl
    simp only [headerLoop, if_pos hw, if_neg this]
  · obtain ⟨chunks, hrun, hprop⟩ := headerLoop_text (monthLabels monday weekCount) weekCount
      (labels_not_adjacent monday weekCount) (label_length monday weekCount)
      weekCount 0 (out ++ ["    "]) (by omega)
    refine ⟨chunks, hrun, fun w hl => ?_⟩
    have hw := ((labelled_iff monday weekCount w).1 hl).1
    obtain ⟨hmem, htext⟩ := hprop w (Nat.zero_le _) hw hl
    rw [Nat.sub_zero] at htext
    refine ⟨hmem, htext, ?_⟩
    rw [outputChars_cons]
    rw [List.getElem?_append_right (by show 4 ≤ _; omega)]
    rw [show 5 + 2 * w - ("    ").data.length = 2 * w + 1 by show 5 + 2 * w - 4 = _; omega]
    have h1 : ((outputChars chunks).drop (2 * w))[1]? = (outputChars chunks)[2 * w + 1]? := by
      rw [List.getElem?_drop]
    have h2 : (((outputChars chunks).drop (2 * w)).take 4)[1]?
        = ((outputChars chunks).drop (2 * w))[1]? := by
      rw [List.getElem?_take]
      simp
    rw [← h1, ← h2, htext]
    cases ((monthLabels monday weekCount).getD w "").data <;> simp


/-! ## Parsed dates -/

/-- The digit character of a number whose last digit is the value of `c`. -/
theorem digitChar_of_digit (c : Char) (n : Nat) (hc : isDigit c = true)
    (hn : (n % 10 : Nat) = c.toNat - 48) : digitChar n = c := by
  unfold isDigit at hc
  simp only [decide_eq_true_eq] at hc
  unfold digitChar
  rw [hn, show 48 + (c.toNat - 48) = c.toNat by omega]
  exact Char.ofNat_toNat c

/-- A string that parses as a date is the `2006-01-02` form of that date. -/
theorem formatDate_parseDate (k : String) (t : Int) (h : parseDate k = some t) :
    formatDate t = k := by
  unfold parseDate parseDateChars at h
  split at h
  · rename_i y1 y2 y3 y4 s1 m1 m2 s2 d1 d2 hk
    split at h
    · rename_i hcond
      simp only [Bool.and_eq_true, decide_eq_true_eq] at hcond
      obtain ⟨⟨⟨⟨⟨⟨⟨⟨⟨hy1, hy2⟩, hy3⟩, hy4⟩, hs1⟩, hm1⟩, hm2⟩, hs2⟩, hd1⟩, hd2⟩ := hcond
      simp only at h
      split at h
      · cases h
      · rename_i hmonth
        split at h
        · cases h
        · rename_i hday
          have ht := (Option.some.inj h).symm
          have v : ∀ c : Char, isDigit c = true → 0 ≤ digitVal c ∧ digitVal c ≤ 9 := by
            intro c hc
            unfold isDigit at hc
            simp only [decide_eq_true_eq] at hc
            unfold digitVal
            omega
          have vn : ∀ c : Char, isDigit c = true → digitVal c = ((c.toNat - 48 : Nat) : Int) := by
            intro c hc
            unfold isDigit at hc
            simp only [decide_eq_true_eq] at hc
            unfold digitVal
            omega
          have hciv := civil_daysFromCivil
            (digitVal y1 * 1000 + digitVal y2 * 100 + digitVal y3 * 10 + digitVal y4)
            (digitVal m1 * 10 + digitVal m2) (digitVal d1 * 10 + digitVal d2)
            (by omega) (by omega) (by omega) (by omega)
          rw [← ht] at hciv
          have b1 := v y1 hy1; have b2 := v y2 hy2; have b3 := v y3 hy3; have b4 := v y4 hy4
          have c1 := v m1 hm1; have c2 := v m2 hm2; have e1 := v d1 hd1; have e2 := v d2 hd2
          have n1 := vn y1 hy1; have n2 := vn y2 hy2; have n3 := vn y3 hy3; have n4 := vn y4 hy4
          have o1 := vn m1 hm1; have o2 := vn m2 hm2; have p1 := vn d1 hd1; have p2 := vn d2 hd2
          unfold formatDate Year Month Day
          rw [hciv]
          simp only
          rw [appendInt_four _ (by omega) (by omega), appendInt_two _ (by omega) (by omega),
            appendInt_two _ (by omega) (by omega)]
          rw [digitChar_of_digit y1 _ hy1 (by omega), digitChar_of_digit y2 _ hy2 (by omega),
            digitChar_of_digit y3 _ hy3 (by omega), digitChar_of_digit y4 _ hy4 (by omega),
            digitChar_of_digit m1 _ hm1 (by omega), digitChar_of_digit m2 _ hm2 (by omega),
            digitChar_of_digit d1 _ hd1 (by omega), digitChar_of_digit d2 _ hd2 (by omega)]
          rw [hs1, hs2] at hk
          have : k = String.mk k.data := rfl
          rw [this, hk]
          rfl
    · cases h
  · cases h

/-! ## Row totals and row cells -/

/-- A sum over the columns with a single non-zero term. -/
theorem sum_range_single (W w₀ : Nat) (c : Int) :
    ((List.range W).map (fun (w : Nat) => if w = w₀ then c else 0)).sum = if w₀ < W then c else 0 := by
  induction W with
  | zero => simp
  | succ n ih =>
    rw [List.range_succ, List.map_append, List.sum_append, ih]
    simp only [List.map_cons, List.map_nil, List.sum_cons, List.sum_nil, add_zero]
    by_cases h1 : w₀ < n
    · have : ¬ n = w₀ := by omega
      simp [h1, this, show w₀ < n + 1 by omega]
    · by_cases h2 : n = w₀
      · simp [h1, h2]
      · have : ¬ w₀ < n + 1 := by omega
        simp [h1, h2, this]

/-- A sum of zeros over the columns. -/
theorem sum_range_zero (W : Nat) (f : Nat → Int) (h : ∀ w, w < W → f w = 0) :
    ((List.range W).map f).sum = 0 := by
  induction W with
  | zero => simp
  | succ n ih =>
    rw [List.range_succ, List.map_append, List.sum_append, ih (fun w hw => h w (by omega))]
    simp [h n (by omega)]

/-- A sum over the columns of sums of two terms. -/
theorem sum_range_add (W : Nat) (f g : Nat → Int) :
    ((List.range W).map (fun (w : Nat) => f w + g w)).sum
      = ((List.range W).map f).sum + ((List.range W).map g).sum := by
  induction W with
  | zero => simp
  | succ n ih =>
    rw [List.range_succ, List.map_append, List.map_append, List.map_append,
      List.sum_append, List.sum_append, List.sum_append, ih]
    simp only [List.map_cons, List.map_nil, List.sum_cons, List.sum_nil, add_zero]
    omega

/-- The cells of row `i` that read the key of the date `t`, a date of the
grid: one cell if `t` falls on weekday `i`, none otherwise. -/
theorem row_hits (monday t : Int) (W i : Nat) (c : Int) (hi : i < 7)
    (hmon : Weekday monday = 1) (h0 : monday ≤ t) (h1 : (t - monday) / 7 < (W : Int)) :
    ((List.range W).map (fun (w : Nat) =>
        if formatDate t = formatDate (addDays monday ((w : Int) * 7 + (i : Int))) then c
        else 0)).sum
      = if specWeekdayIndex t = (i : Int) then c else 0 := by
  unfold Weekday at hmon
  by_cases hidx : specWeekdayIndex t = (i : Int)
  · rw [if_pos hidx]
    unfold specWeekdayIndex Weekday at hidx
    have hfun : (fun w : Nat =>
        if formatDate t = formatDate (addDays monday ((w : Int) * 7 + (i : Int))) then c
        else 0) = (fun w : Nat => if w = ((t - monday) / 7).toNat then c else 0) := by
      funext w
      by_cases hw : w = ((t - monday) / 7).toNat
      · have : t = addDays monday ((w : Int) * 7 + (i : Int)) := by
          unfold addDays; omega
        rw [if_pos hw, if_pos (by rw [← this])]
      · have : t ≠ addDays monday ((w : Int) * 7 + (i : Int)) := by
          unfold addDays; omega
        rw [if_neg hw, if_neg (fun hf => this (formatDate_injective _ _ hf))]
    rw [hfun, sum_range_single, if_pos (by omega)]
  · rw [if_neg hidx]
    unfold specWeekdayIndex Weekday at hidx
    apply sum_range_zero
    intro w _
    have : t ≠ addDays monday ((w : Int) * 7 + (i : Int)) := by
      unfold addDays; omega
    rw [if_neg (fun hf => this (formatDate_injective _ _ hf))]

/-- The row total of the spec equals the sum over the columns of the counts
shown in the row, when every key is a date of the grid. -/
theorem rowCellTotal_eq (monday : Int) (W i : Nat) (hi : i < 7) (hmon : Weekday monday = 1) :
    ∀ m : List (String × List Commit), (m.map Prod.fst).Nodup →
      (∀ e ∈ m, ∃ t, parseDate e.1 = some t ∧ monday ≤ t ∧ (t - monday) / 7 < (W : Int)) →
      rowCellTotal monday (m.map (fun e => (e.1, (e.2.length : Int)))) W i
        = specWeekdayTotal m (i : Int) := by
  intro m
  induction m with
  | nil =>
    intro _ _
    unfold rowCellTotal countOn specWeekdayTotal
    simp only [List.map_nil, mapGet, Option.getD_none, List.sum_nil]
    exact sum_range_zero W _ (fun _ _ => rfl)
  | cons e rest ih =>
    intro hnd hkeys
    simp only [List.map_cons, List.nodup_cons] at hnd
    obtain ⟨t, hp, h0, h1⟩ := hkeys e (List.mem_cons_self _ _)
    have ih' := ih hnd.2 (fun x hx => hkeys x (List.mem_cons_of_mem _ hx))
    have hfmt := formatDate_parseDate e.1 t hp
    have hterm : ∀ w : Nat,
        countOn ((e.1, (e.2.length : Int)) :: rest.map (fun e => (e.1, (e.2.length : Int))))
          (addDays monday ((w : Int) * 7 + (i : Int)))
        = (if formatDate t = formatDate (addDays monday ((w : Int) * 7 + (i : Int)))
            then (e.2.length : Int) else 0)
          + countOn (rest.map (fun e => (e.1, (e.2.length : Int))))
              (addDays monday ((w : Int) * 7 + (i : Int))) := by
      intro w
      unfold countOn
      simp only [mapGet]
      rw [hfmt]
      by_cases hk : e.1 = formatDate (addDays monday ((w : Int) * 7 + (i : Int)))
      · rw [if_pos hk, if_pos hk]
        have hnone : mapGet (rest.map (fun e => (e.1, (e.2.length : Int))))
            (formatDate (addDays monday ((w : Int) * 7 + (i : Int)))) = none := by
          apply mapGet_eq_none_of_not_mem
          rw [← hk]
          simpa [Function.comp_def] using hnd.1
        rw [hnone]
        simp
      · rw [if_neg hk, if_neg hk]
        simp
    unfold rowCellTotal at ih' ⊢
    simp only [List.map_cons]
    rw [show (fun w : Nat => countOn
          ((e.1, (e.2.length : Int)) :: rest.map (fun e => (e.1, (e.2.length : Int))))
          (addDays monday ((w : Int) * 7 + (i : Int))))
        = (fun w : Nat =>
          (if formatDate t = formatDate (addDays monday ((w : Int) * 7 + (i : Int)))
            then (e.2.length : Int) else 0)
          + countOn (rest.map (fun e => (e.1, (e.2.length : Int))))
              (addDays monday ((w : Int) * 7 + (i : Int)))) from funext hterm]
    rw [sum_range_add, ih', row_hits monday t W i _ hi hmon h0 h1]
    unfold specWeekdayTotal
    simp only [List.map_cons, List.sum_cons, hp]


/-- Each weekday total is the total of the spec. -/
theorem weekdayTotals_getD (m : List (String × List Commit)) (i : Nat) (hi : i < 7) :
    (weekdayTotals m).getD i 0 = specWeekdayTotal m (i : Int) := by
  rw [weekdayTotals_eq]
  simp [List.getD_eq_getElem?_getD, hi]

/-- The total of the spec does not depend on the order of the entries. -/
theorem specWeekdayTotal_perm (m m' : List (String × List Commit)) (i : Int)
    (h : m.Perm m') : specWeekdayTotal m i = specWeekdayTotal m' i := by
  unfold specWeekdayTotal
  exact (h.map _).sum_eq

/-- C20 fails as stated: in New York with cutoff Monday 2024-03-04 and today
Monday 2024-03-11, one commit on each of the two days, both keys are dates
between the first-week Monday and today; the run computes one column, the
Monday total is 2 and the only cell of the Monday row shows the one commit of
2024-03-04. -/
theorem row_totals_counterexample :
    parseDate "2024-03-04" = some 19786 ∧ parseDate "2024-03-11" = some 19793 ∧
    getMondaysDateForDate 19786 = 19786 ∧
    weekCountIn zoneNewYork2024 (getMondaysDateForDate 19786) 19793 = 1 ∧
    (weekdayTotals [("2024-03-04", [⟨"a", ""⟩]), ("2024-03-11", [⟨"b", ""⟩])]).getD 0 0 = 2 ∧
    rowCellTotal (getMondaysDateForDate 19786)
        (commitCountByDate [("2024-03-04", [⟨"a", ""⟩]), ("2024-03-11", [⟨"b", ""⟩])])
        (weekCountIn zoneNewYork2024 (getMondaysDateForDate 19786) 19793).toNat 0 = 1 ∧
    rowOutput
        (fillMatrix (getMondaysDateForDate 19786) 19793
          (commitCountByDate [("2024-03-04", [⟨"a", ""⟩]), ("2024-03-11", [⟨"b", ""⟩])])
          (weekCountIn zoneNewYork2024 (getMondaysDateForDate 19786) 19793).toNat)
        (weekdayTotals [("2024-03-04", [⟨"a", ""⟩]), ("2024-03-11", [⟨"b", ""⟩])])
        (weekCountIn zoneNewYork2024 (getMondaysDateForDate 19786) 19793).toNat 0
      = [" Mon ", colorize 1 false ++ " ", "    2 Mon", "\n"] := by
  decide

/-- C20, amended: when every key of the commit map is a valid date between the
first-week Monday and today, the offset of the zone at today's reading is the
same as at the Monday's or smaller by less than a day, and today is at most
106751 days after the Monday (the whole days of the largest duration), the
total of every weekday row `i` is the sum over the week columns `w` of the
commit count of the date `monday + 7*w + i`; and a key whose date lies before
the Monday or after today adds the length of its commit list to the total of
its weekday, while no cell of the grid that is looked up (a date up to today)
reads that key. -/
theorem row_totals (zone : Int → Int) (since today : Int) (m : List (String × List Commit))
    (hnd : (m.map Prod.fst).Nodup)
    (hkeys : ∀ e ∈ m, ∃ t, parseDate e.1 = some t ∧
      getMondaysDateForDate since ≤ t ∧ t ≤ today)
    (hz1 : zone today ≤ zone (getMondaysDateForDate since))
    (hz2 : zone (getMondaysDateForDate since) - zone today < 86400)
    (hfit : today - getMondaysDateForDate since ≤ 106751) :
    (∀ i : Nat, i < 7 →
      (weekdayTotals m).getD i 0
        = rowCellTotal (getMondaysDateForDate since) (commitCountByDate m)
            (weekCountIn zone (getMondaysDateForDate since) today).toNat i) ∧
    (∀ (l₁ l₂ : List (String × List Commit)) (k : String) (cs : List Commit) (t : Int),
      parseDate k = some t →
      (t < getMondaysDateForDate since ∨ today < t) →
      ((weekdayTotals (l₁ ++ (k, cs) :: l₂)).getD (specWeekdayIndex t).toNat 0
        = (cs.length : Int)
          + (weekdayTotals (l₁ ++ l₂)).getD (specWeekdayIndex t).toNat 0) ∧
      ∀ w d : Nat, addDays (getMondaysDateForDate since) ((w : Int) * 7 + (d : Int)) ≤ today →
        formatDate (addDays (getMondaysDateForDate since) ((w : Int) * 7 + (d : Int))) ≠ k) := by
  have hmon : Weekday (getMondaysDateForDate since) = 1 := by
    rw [getMondaysDateForDate_eq]; unfold Weekday; omega
  constructor
  · intro i hi
    rw [weekdayTotals_getD m i hi, commitCountByDate_eq m hnd]
    symm
    apply rowCellTotal_eq _ _ i hi hmon m hnd
    intro e he
    obtain ⟨t, hp, h0, h1⟩ := hkeys e he
    have hm : getMondaysDateForDate since ≤ today := by omega
    have hW := weekCountIn_calendar zone _ _ hm hz1 hz2 hfit
    refine ⟨t, hp, h0, ?_⟩
    rw [hW]
    omega
  · intro l₁ l₂ k cs t hp hout
    have hr := specWeekdayIndex_range t
    constructor
    · rw [weekdayTotals_getD _ _ (by omega), weekdayTotals_getD _ _ (by omega)]
      rw [specWeekdayTotal_perm _ _ _ (@List.perm_middle _ (k, cs) l₁ l₂)]
      unfold specWeekdayTotal
      simp only [List.map_cons, List.sum_cons, hp]
      rw [if_pos (by omega)]
    · intro w d hle hf
      have hfmt := formatDate_parseDate k t hp
      rw [← hfmt] at hf
      have := formatDate_injective _ _ hf
      unfold addDays at this hle
      rcases hout with h | h
      · omega
      · omega

/-- Witness for C20 amended: New York, one commit on Monday 2024-10-28
(daylight time) and two on Tuesday 2024-11-12 (standard time), today; the
Tuesday row. -/
theorem row_totals_witness :
    zoneNewYork2024 20039 ≤ zoneNewYork2024 (getMondaysDateForDate 20026) ∧
    zoneNewYork2024 (getMondaysDateForDate 20026) - zoneNewYork2024 20039 < 86400 ∧
    20039 - getMondaysDateForDate 20026 ≤ 106751 ∧
    (weekdayTotals [("2024-10-28", [⟨"a", ""⟩]), ("2024-11-12", [⟨"b", ""⟩, ⟨"c", ""⟩])]).getD 1 0
      = rowCellTotal (getMondaysDateForDate 20026)
          (commitCountByDate
            [("2024-10-28", [⟨"a", ""⟩]), ("2024-11-12", [⟨"b", ""⟩, ⟨"c", ""⟩])])
          (weekCountIn zoneNewYork2024 (getMondaysDateForDate 20026) 20039).toNat 1 :=
  ⟨by decide, by decide, by decide,
   (row_totals zoneNewYork2024 20026 20039
    [("2024-10-28", [⟨"a", ""⟩]), ("2024-11-12", [⟨"b", ""⟩, ⟨"c", ""⟩])]
    (by decide) (by
      intro e he
      simp only [List.mem_cons, List.mem_singleton, List.not_mem_nil, or_false] at he
      rcases he with rfl | rfl
      · exact ⟨20024, by decide, by decide, by decide⟩
      · exact ⟨20039, by decide, by decide, by decide⟩)
    (by decide) (by decide) (by decide)).1 1 (by decide)⟩

end GitHeat
